import Mathlib

/-!
Verification of the navigation/search/coloring engine of the `colorless`
pager (src/colorless.py) against its specification.

The embedding models the file under view as a `List Char` (one byte per
character, matching a single-byte locale encoding).  The single line
terminator is `'\n'`: this matches `readline` on a binary file exactly;
`bytes.splitlines` (used by `prev_line_iterator`) additionally splits on
`'\r'`, so theorems that traverse the backward line scan carry a
"no carriage return" hypothesis restricting them to the files on which the
two line disciplines agree.

Python's `re` module is external library code; it is modelled by the
`ReLib` structure (a compile oracle returning a search function, or the
library's error message for an unparsable pattern).  Concrete instances
used by witnesses and counterexamples model `re`'s documented behaviour on
literal patterns and on one unparsable pattern.
-/

namespace Colorless

/-- Exit code `os.EX_OK`. -/
def EX_OK : Nat := 0

/-- Exit code `os.EX_USAGE`. -/
def EX_USAGE : Nat := 64

/-- Exit code `os.EX_DATAERR`. -/
def EX_DATAERR : Nat := 65

/-- Exit code `os.EX_NOINPUT`. -/
def EX_NOINPUT : Nat := 66

/-- A Python exception escaping the engine: `ExitFailure(exit_code, msg)`
(the only exception the program raises deliberately), or the
`AttributeError` that `compile_smartcase_regex(None)` would raise
(`None.islower()`), which can only occur on the unreachable path where a
search direction is recorded without a query. -/
inductive PyExn where
  | exit_failure (exit_code : Nat) (msg : String)
  | attribute_error
deriving DecidableEq, Repr

/-- `str.islower()` restricted to ASCII strings: true iff the string has at
least one cased (ASCII alphabetic) character and every cased character is
lowercase (equivalently: no uppercase letter).  This is the branch
condition of `RegexCompiler.compile_smartcase_regex`. -/
def pyIslower (s : String) : Bool :=
  s.data.any (fun c => c.isAlpha) && s.data.all (fun c => !c.isUpper)

/-- `sanitize_line` on a single byte: `'\x01'` becomes the four characters
`\x01` and a tab becomes four spaces (the two replacements of
`sanitize_line`); all other bytes decode to themselves. -/
def sanitizeChar (c : Char) : List Char :=
  if c = '\x01' then ['\\', 'x', '0', '1']
  else if c = '\t' then [' ', ' ', ' ', ' ']
  else [c]

/-- `sanitize_line(line)`: decode and apply the two replacements.  The two
sequential `str.replace` calls of the source commute with this per-byte
map because neither replacement's output contains a byte that the other
replaces. -/
def sanitize_line (l : List Char) : List Char :=
  l.flatMap sanitizeChar

/-- Split off the first line of a byte list: everything up to and including
the first `'\n'` (or the whole list if none), plus the remainder.  This is
the behaviour of `file.readline()` on a binary file. -/
def breakAfterNl : List Char → List Char × List Char
  | [] => ([], [])
  | c :: cs =>
      if c = '\n' then ([c], cs)
      else
        let p := breakAfterNl cs
        (c :: p.1, p.2)

/-- `input_file.readline()` issued with the cursor at byte `pos`. -/
def readline (f : List Char) (pos : Nat) : List Char :=
  (breakAfterNl (f.drop pos)).1

/-- Accumulator worker for `splitlinesKeep`; `acc` holds the reversed
pending characters of the current line. -/
def splitAux : List Char → List Char → List (List Char)
  | acc, [] => if acc = [] then [] else [acc.reverse]
  | acc, c :: cs =>
      if c = '\n' then (acc.reverse ++ ['\n']) :: splitAux [] cs
      else splitAux (c :: acc) cs

/-- `chunk.splitlines(True)` for byte strings whose only line terminator is
`'\n'` (Python additionally splits on `'\r'`; theorems using the backward
scan therefore assume the file is free of carriage returns). -/
def splitlinesKeep (l : List Char) : List (List Char) :=
  splitAux [] l

/-- The last element of `splitlines(True)`: the trailing (possibly
newline-terminated) line of a byte string; `[]` for the empty string. -/
def lastLineOf (l : List Char) : List Char :=
  (splitlinesKeep l).getLastD []

/-- Byte offset `p` is the start of a logical line of `f`: offset `0`, or
an offset directly after a newline byte.  (Boolean for computability.) -/
def isLineStartB (f : List Char) (p : Nat) : Bool :=
  p == 0 || f.getD (p - 1) 'A' == '\n'

/-! ### SearchHistory -/

/-- Worker for `pyDedup`: `seen` holds the keys already emitted; a string
is kept exactly when it has not been seen before. -/
def pyDedupAux (seen : List String) : List String → List String
  | [] => []
  | a :: l => if a ∈ seen then pyDedupAux seen l else a :: pyDedupAux (a :: seen) l

/-- `list(collections.OrderedDict.fromkeys(xs))`: remove duplicates keeping
the first occurrence of each string. -/
def pyDedup (l : List String) : List String :=
  pyDedupAux [] l

/-- `SearchHistory._filter_duplicate_search_queries` composed with the
front insertion of `insert_search_query`: push `q` to the front,
deduplicate keeping first occurrences, truncate to 100 entries. -/
def insert_search_query (q : String) (qs : List String) : List String :=
  (pyDedup (q :: qs)).take 100

/-! ### ConfigFileReader validation -/

/-- The per-entry loop of `ConfigFileReader._validate_regex_to_color`:
raise `ExitFailure(os.EX_NOINPUT, ...)` on the first color outside
`[0, 255]`. -/
def validateColors : List (String × Int) → Except PyExn Unit
  | [] => .ok ()
  | (regex, color) :: rest =>
      if color < 0 ∨ color > 255 then
        .error (.exit_failure EX_NOINPUT
          ("(regex: " ++ regex ++ ", color: " ++ toString color ++
           ") is invalid - color must be in the range [0, 255]"))
      else validateColors rest

/-- `ConfigFileReader._validate_regex_to_color`: reject more than 255 rules,
then reject the first rule whose color is outside `[0, 255]`. -/
def validate_regex_to_color (rtc : List (String × Int)) : Except PyExn Unit :=
  if rtc.length > 255 then
    .error (.exit_failure EX_NOINPUT
      ("A maximum of 255 regexes are supported but found " ++ toString rtc.length))
  else validateColors rtc

/-! ### RegexCompiler and the `re` library model -/

/-- Model of the external `re` module: `compile pat ignorecase` yields the
compiled pattern's `search` predicate on decoded lines, or the library's
error message when the pattern is unparsable. -/
structure ReLib where
  compile : String → Bool → Except String (List Char → Bool)

/-- The message of the `ExitFailure` raised by
`RegexCompiler.compile_regex` when `re.compile` fails. -/
def compile_error_msg (regex e : String) : String :=
  "Compiling regex " ++ regex ++ " failed with error: \"" ++ e ++ "\""

/-- `RegexCompiler.compile_regex`: wrap the pattern in a capturing group and
compile it, converting a library error into
`ExitFailure(os.EX_DATAERR, ...)`. -/
def compile_regex (lib : ReLib) (regex : String) (ignorecase : Bool) :
    Except PyExn (List Char → Bool) :=
  match lib.compile ("(" ++ regex ++ ")") ignorecase with
  | .ok m => .ok m
  | .error e => .error (.exit_failure EX_DATAERR (compile_error_msg regex e))

/-- `RegexCompiler.compile_smartcase_regex`: compile with `re.IGNORECASE`
exactly when `regex.islower()`. -/
def compile_smartcase_regex (lib : ReLib) (regex : String) :
    Except PyExn (List Char → Bool) :=
  if pyIslower regex then compile_regex lib regex true
  else compile_regex lib regex false

/-- Boolean substring test: `pat` occurs contiguously inside `l`. -/
def containsSub (pat l : List Char) : Bool :=
  (List.range (l.length + 1)).any (fun i => pat.isPrefixOf (l.drop i))

/-- `re.search` semantics for a metacharacter-free (literal) pattern:
substring containment, case-folded under `re.IGNORECASE`. -/
def litSearch (pat : List Char) (ignorecase : Bool) (line : List Char) : Bool :=
  if ignorecase then containsSub (pat.map Char.toLower) (line.map Char.toLower)
  else containsSub pat line

/-- Strip the capturing-group parentheses that `compile_regex` adds around
the pattern. -/
def stripGroup (s : String) : List Char :=
  (s.data.drop 1).dropLast

/-- `re` model for literal patterns: every pattern of the form `(lit)`
compiles to literal substring search. -/
def litLib : ReLib :=
  ⟨fun pat ic => .ok (fun line => litSearch (stripGroup pat) ic line)⟩

/-- `re` model used to observe which flag `compile_smartcase_regex` passes:
the compiled matcher ignores the line and returns the `ignorecase` flag. -/
def flagLib : ReLib :=
  ⟨fun _ ic => .ok (fun _ => ic)⟩

/-! ### FileIterator -/

/-- The cursor of `FileIterator`: the byte position of the underlying file
handle (`input_file.tell()`) and the intra-line column offset
(`line_col`). -/
@[ext]
structure FState where
  pos : Nat
  col : Nat
deriving DecidableEq, Repr

/-- Worker for `prevLineFirst`: one iteration of the chunk-reading loop of
`prev_line_iterator`, with the chunk-doubling retry as the `cs * 2`
recursion.  The `fuel` argument only bounds the number of retries to make
the recursion structural: each retry strictly increases the effective
chunk size `min cs k` while it is below `k`, so at most `k` retries are
possible and the starting fuel `k + 1` makes the exhaustion branch
unreachable. -/
def prevLineFirstGo (f : List Char) (k : Nat) : Nat → Nat → List Char × Nat
  | 0, _ => ([], k)
  | fuel + 1, cs =>
      if f.length < k then ([], k)
      else
        let csz := min cs k
        let chunk := (f.take k).drop (k - csz)
        match splitlinesKeep chunk with
        | [] => ([], k)
        | [c] =>
            if k = c.length then (c, 0)
            else prevLineFirstGo f k fuel (cs * 2)
        | _ :: c1 :: rest =>
            let L := (c1 :: rest).getLastD []
            (L, k - L.length)

/-- First yield of `FileIterator.prev_line_iterator()` from byte position
`k` with starting chunk size `cs` (the source starts at 2048): the line
ending at `k` together with the file position after the generator's
seek-back, i.e. the start of that line.  At position 0 the generator
yields the empty sentinel without moving.  Positions beyond the end of
file cannot occur (`tell()` is bounded by the file size) and are mapped to
the sentinel. -/
def prevLineFirst (f : List Char) (k cs : Nat) : List Char × Nat :=
  prevLineFirstGo f k (k + 1) cs

/-- First element of `reversed(range(0, n, w))`, for `w ≥ 1` and `n ≥ 1`:
the largest multiple of `w` strictly below `n`. -/
def lastMultipleBelow (w n : Nat) : Nat :=
  w * ((n - 1) / w)

/-- `FileIterator._seek_next_wrapped_line`: read the line at the cursor,
advance `line_col` by the terminal width; if that reaches the sanitized
line's length the cursor stays after the line with `line_col = 0`,
otherwise the read is undone and only `line_col` advances. -/
def _seek_next_wrapped_line (f : List Char) (cols : Nat) (s : FState) : FState :=
  let line := readline f s.pos
  let sanitized := sanitize_line line
  let col := s.col + cols
  if sanitized.length ≤ col then ⟨s.pos + line.length, 0⟩
  else ⟨s.pos, col⟩

/-- `FileIterator._seek_next_wrapped_lines(count)`. -/
def _seek_next_wrapped_lines (f : List Char) (cols : Nat) : Nat → FState → FState
  | 0, s => s
  | n + 1, s => _seek_next_wrapped_lines f cols n (_seek_next_wrapped_line f cols s)

/-- `FileIterator._seek_prev_wrapped_line`: if `line_col` is positive,
decrement it by up to one terminal width; otherwise move to the start of
the previous line and, when that line is wider than the terminal, enter it
at its last wrapped row. -/
def _seek_prev_wrapped_line (f : List Char) (cols : Nat) (s : FState) : FState :=
  if 0 < s.col then ⟨s.pos, s.col - cols⟩
  else
    let r := prevLineFirst f s.pos 2048
    if r.1 = [] then s
    else
      let sanitized := sanitize_line r.1
      if sanitized.length ≤ cols then ⟨r.2, 0⟩
      else ⟨r.2, lastMultipleBelow cols sanitized.length⟩

/-- `FileIterator.seek_prev_wrapped_lines(count)`. -/
def seek_prev_wrapped_lines (f : List Char) (cols : Nat) : Nat → FState → FState
  | 0, s => s
  | n + 1, s => seek_prev_wrapped_lines f cols n (_seek_prev_wrapped_line f cols s)

/-- `FileIterator.seek_to_last_page`: seek to the end of file (resetting
`line_col`), then walk back `rows` wrapped lines. -/
def seek_to_last_page (f : List Char) (rows cols : Nat) : FState :=
  seek_prev_wrapped_lines f cols rows ⟨f.length, 0⟩

/-- `FileIterator.clamp_position_to_last_page`: keep the current position
when it is lexicographically below the last-page position (byte offset
first, then `line_col`), otherwise move to the last-page position. -/
def clamp_position_to_last_page (f : List Char) (rows cols : Nat) (s : FState) : FState :=
  let lp := seek_to_last_page f rows cols
  if s.pos < lp.pos ∨ (s.pos = lp.pos ∧ s.col < lp.col) then s else lp

/-- `FileIterator.seek_next_wrapped_lines(count)`: the forward steps
followed by the last-page clamp. -/
def seek_next_wrapped_lines (f : List Char) (rows cols count : Nat) (s : FState) : FState :=
  clamp_position_to_last_page f rows cols (_seek_next_wrapped_lines f cols count s)

/-- `FileIterator.seek_to_percentage_of_file(percentage)`: seek the file
handle to `int(percentage * file_size)` (leaving `line_col` untouched),
take one step of `prev_line_iterator` (moving to the start of the line
ending at or containing that offset), then clamp to the last page.
`int()` truncation equals the rational floor since the product is
nonnegative. -/
def seek_to_percentage_of_file (f : List Char) (rows cols : Nat) (p : ℚ)
    (s : FState) : FState :=
  let fileSize : ℚ := f.length
  let off := (⌊p * fileSize⌋).toNat
  let r := prevLineFirst f off 2048
  clamp_position_to_last_page f rows cols ⟨r.2, s.col⟩

/-- `re` model recording that `re.compile` fails on the unparsable pattern
`"(()"` (the query `"("` after `compile_regex` wraps it in a group) with
the error message CPython produces, and succeeds elsewhere. -/
def badParenLib : ReLib :=
  ⟨fun pat _ =>
    if pat = "(()" then .error "missing ), unterminated subpattern at position 0"
    else .ok (fun _ => false)⟩

/-! ### SearchMode -/

/-- `SearchMode.SEARCH_FORWARDS_CHAR`. -/
def SEARCH_FORWARDS_CHAR : Char := '/'

/-- `SearchMode.SEARCH_BACKWARDS_CHAR`. -/
def SEARCH_BACKWARDS_CHAR : Char := '?'

/-- Worker for `searchFwdLoop`.  The `fuel` argument only bounds the
number of line reads to make the recursion structural: every nonempty line
advances the position by at least one byte, so at most `f.length + 1`
reads are possible and the starting fuel makes the exhaustion branch
unreachable. -/
def searchFwdGo (m : List Char → Bool) (f : List Char) : Nat → Nat → Bool × Nat
  | 0, pos => (false, pos)
  | fuel + 1, pos =>
      let line := readline f pos
      if line = [] then (false, pos)
      else if m (sanitize_line line) then
        let r := prevLineFirst f (pos + line.length) 2048
        (true, r.2)
      else searchFwdGo m f fuel (pos + line.length)

/-- The scan loop of `SearchMode._search_forwards`: read lines one at a
time from byte position `pos`; at end of file report failure, on a line
whose sanitized text matches take one `prev_line_iterator` step back to
the start of the matched line and report success. -/
def searchFwdLoop (m : List Char → Bool) (f : List Char) (pos : Nat) : Bool × Nat :=
  searchFwdGo m f (f.length + 1) pos

/-- The scan loop of `SearchMode._search_backwards`: take
`prev_line_iterator` steps; the empty sentinel (beginning of file) reports
failure, a line whose sanitized text matches reports success with the
cursor already at its start.  Iterating restarted single steps coincides
with the source's single resumed generator: after each yield the cursor
sits at the start of the yielded line, from where a fresh
`prev_line_iterator` continues with exactly the preceding line.  Every
nonempty yield moves the cursor strictly backward, so at most `pos + 1`
steps are possible; the `fuel` argument only bounds the steps to make the
recursion structural, and the starting fuel makes the exhaustion branch
unreachable. -/
def searchBwdGo (m : List Char → Bool) (f : List Char) : Nat → Nat → Bool × Nat
  | 0, pos => (false, pos)
  | fuel + 1, pos =>
      let r := prevLineFirst f pos 2048
      if r.1 = [] then (false, pos)
      else if m (sanitize_line r.1) then (true, r.2)
      else searchBwdGo m f fuel r.2

/-- The scan loop of `SearchMode._search_backwards` (see `searchBwdGo`). -/
def searchBwdLoop (m : List Char → Bool) (f : List Char) (pos : Nat) : Bool × Nat :=
  searchBwdGo m f (pos + 1) pos

/-- `SearchMode._search_forwards`: compile the last query smartcase (the
only raise, before any cursor movement), skip the line at the cursor, scan
forward; on success the cursor is clamped to the last page. -/
def _search_forwards (lib : ReLib) (f : List Char) (rows cols : Nat) (q : String)
    (s : FState) : Except PyExn (Bool × FState) :=
  match compile_smartcase_regex lib q with
  | .error e => .error e
  | .ok m =>
      let pos1 := s.pos + (readline f s.pos).length
      let r := searchFwdLoop m f pos1
      if r.1 then .ok (true, clamp_position_to_last_page f rows cols ⟨r.2, s.col⟩)
      else .ok (false, ⟨r.2, s.col⟩)

/-- `SearchMode._search_backwards`: compile the last query smartcase (the
only raise, before any cursor movement), then scan backward; no clamp is
applied on success. -/
def _search_backwards (lib : ReLib) (f : List Char) (q : String) (s : FState) :
    Except PyExn (Bool × FState) :=
  match compile_smartcase_regex lib q with
  | .error e => .error e
  | .ok m =>
      let r := searchBwdLoop m f s.pos
      .ok (r.1, ⟨r.2, s.col⟩)

/-- `SearchMode._search_with_interrupt_handling` on the result of a search
function started from cursor `s`: on success reset `line_col` to 0; on the
not-found sentinel restore the saved byte position (`seek` does not touch
`line_col`); an `ExitFailure` escaping the search function is not caught
(only `KeyboardInterrupt` is) and propagates. -/
def _search_with_interrupt_handling (result : Except PyExn (Bool × FState))
    (s : FState) : Except PyExn FState :=
  match result with
  | .error e => .error e
  | .ok (true, s1) => .ok ⟨s1.pos, 0⟩
  | .ok (false, s1) => .ok ⟨s.pos, s1.col⟩

/-- The engine state a search operates on: the file cursor plus
`SearchHistory` (`last_search_query`, `search_queries`), the persisted
history-file contents, and `SearchMode.last_search_direction_char`. -/
structure Session where
  fstate : FState
  lastQuery : Option String
  queries : List String
  savedQueries : List String
  lastDir : Option Char
deriving DecidableEq, Repr

/-- `SearchHistory.insert_search_query` at the session level: record the
last query and update the deduplicated, truncated list. -/
def sessionInsertQuery (q : String) (st : Session) : Session :=
  { st with lastQuery := some q, queries := insert_search_query q st.queries }

/-- `SearchMode._continue_search`: dispatch on the recorded search
direction; with no direction recorded, report failure without searching.
With a direction but no recorded query the source would evaluate
`None.islower()` (an `AttributeError`), an unreachable state. -/
def _continue_search (lib : ReLib) (f : List Char) (rows cols : Nat) (st : Session) :
    Except PyExn (Bool × FState) :=
  if st.lastDir = some SEARCH_FORWARDS_CHAR then
    match st.lastQuery with
    | some q => _search_forwards lib f rows cols q st.fstate
    | none => .error .attribute_error
  else if st.lastDir = some SEARCH_BACKWARDS_CHAR then
    match st.lastQuery with
    | some q => _search_backwards lib f q st.fstate
    | none => .error .attribute_error
  else .ok (false, st.fstate)

/-- `SearchMode._continue_reverse_search`: as `_continue_search` with the
two directions exchanged. -/
def _continue_reverse_search (lib : ReLib) (f : List Char) (rows cols : Nat)
    (st : Session) : Except PyExn (Bool × FState) :=
  if st.lastDir = some SEARCH_FORWARDS_CHAR then
    match st.lastQuery with
    | some q => _search_backwards lib f q st.fstate
    | none => .error .attribute_error
  else if st.lastDir = some SEARCH_BACKWARDS_CHAR then
    match st.lastQuery with
    | some q => _search_forwards lib f rows cols q st.fstate
    | none => .error .attribute_error
  else .ok (false, st.fstate)

/-- `SearchMode.continue_search` (the `n` command). -/
def continue_search (lib : ReLib) (f : List Char) (rows cols : Nat) (st : Session) :
    Except PyExn Session :=
  match _search_with_interrupt_handling (_continue_search lib f rows cols st) st.fstate with
  | .error e => .error e
  | .ok fs => .ok { st with fstate := fs }

/-- `SearchMode.continue_reverse_search` (the `N` command). -/
def continue_reverse_search (lib : ReLib) (f : List Char) (rows cols : Nat)
    (st : Session) : Except PyExn Session :=
  match _search_with_interrupt_handling (_continue_reverse_search lib f rows cols st) st.fstate with
  | .error e => .error e
  | .ok fs => .ok { st with fstate := fs }

/-- `SearchMode.start_new_search` after the query-entry loop returned the
submitted query `q`: an empty query aborts with no effect; otherwise the
query is inserted into the history, the history is persisted to disk, the
search direction is recorded, and the search runs.  When an exception
escapes the search, the session state at the raise is returned alongside
it: the history mutations persist, and the file cursor is unmoved because
the only raise in the search functions precedes any cursor movement. -/
def start_new_search (lib : ReLib) (f : List Char) (rows cols : Nat)
    (dirChar : Char) (q : String) (st : Session) : Session × Option PyExn :=
  if q = "" then (st, none)
  else
    let st1 := sessionInsertQuery q st
    let st2 := { st1 with savedQueries := st1.queries }
    let st3 := { st2 with lastDir := some dirChar }
    match continue_search lib f rows cols st3 with
    | .ok st4 => (st4, none)
    | .error e => (st3, some e)

/-! ### ColorMaskGenerator -/

/-- `ColorMaskGenerator.NO_COLOR`. -/
def NO_COLOR : Nat := 0

/-- The reserved live search-highlight color id (`self.SEARCH_COLOR`). -/
def SEARCH_COLOR : Nat := 255

/-- A compiled regex as the color-mask generator consumes it: the
`re.split` function of the pattern wrapped in a capturing group, under
which matched substrings occupy odd-indexed tokens and the tokens
concatenate to the input line (the latter is the `re` library guarantee,
taken as a hypothesis in the theorems). -/
abbrev CompiledRegex := List Char → List (List Char)

/-- Python list slice assignment
`mask[col:col + n] = [color] * n` (within bounds). -/
def setSlice (mask : List Nat) (col n color : Nat) : List Nat :=
  mask.take col ++ List.replicate n color ++ mask.drop (col + n)

/-- The token walk of `ColorMaskGenerator.generate_color_mask` for one
rule: enumerate the split tokens, tracking the running column, and
overwrite the colors of each odd-indexed (matching) token's span. -/
def applyTokens (color : Nat) : Nat → Nat → List (List Char) → List Nat → List Nat
  | _, _, [], mask => mask
  | index, col, token :: ts, mask =>
      applyTokens color (index + 1) (col + token.length) ts
        (if index % 2 == 1 then setSlice mask col token.length color else mask)

/-- `ColorMaskGenerator.generate_color_mask`: start from the all
`NO_COLOR` mask and apply each rule's matches in rule order. -/
def generate_color_mask (rules : List (CompiledRegex × Nat)) (line : List Char) :
    List Nat :=
  rules.foldl (fun mask rc => applyTokens rc.2 0 0 (rc.1 line) mask)
    (List.replicate line.length NO_COLOR)

/-- `ColorMaskGenerator._regex_to_color_including_last_search_query`: the
configured rules, with the compiled last search query appended last under
`SEARCH_COLOR` when a last query exists. -/
def regex_to_color_including_last_search_query
    (rules : List (CompiledRegex × Nat)) (lastQuery : Option CompiledRegex) :
    List (CompiledRegex × Nat) :=
  match lastQuery with
  | none => rules
  | some r => rules ++ [(r, SEARCH_COLOR)]

/-- The positions a token list marks: `true` at the characters covered by
odd-indexed tokens. -/
def tokenMask : Nat → List (List Char) → List Bool
  | _, [] => []
  | index, token :: ts =>
      List.replicate token.length (index % 2 == 1) ++ tokenMask (index + 1) ts

/-- The positions of `line` matched by rule `r` (covered by an odd-indexed
token of its split). -/
def ruleMask (r : CompiledRegex) (line : List Char) : List Bool :=
  tokenMask 0 (r line)

/-- The color the claim predicts for character `i`: the color of the last
rule in the list that marks `i`, or `NO_COLOR` if none does. -/
def lastMarkedColor (rules : List (CompiledRegex × Nat)) (line : List Char)
    (i : Nat) : Nat :=
  (((rules.filter (fun rc => (ruleMask rc.1 line).getD i false)).getLast?).map
    Prod.snd).getD NO_COLOR

/-- Leftmost occurrence of `pat` in `l`. -/
def findOcc (pat l : List Char) : Option Nat :=
  (List.range (l.length + 1)).find? (fun i => pat.isPrefixOf (l.drop i))

/-- Worker for `litSplit`; the `fuel` argument only bounds the number of
occurrences processed (each consumes at least one character of `l`, so the
starting fuel `l.length + 1` makes the exhaustion branch unreachable for
nonempty patterns). -/
def litSplitGo (pat : List Char) : Nat → List Char → List (List Char)
  | 0, l => [l]
  | fuel + 1, l =>
      if pat = [] then [l]
      else
        match findOcc pat l with
        | none => [l]
        | some i => l.take i :: pat :: litSplitGo pat fuel (l.drop (i + pat.length))

/-- `re.split` with a capturing group for a literal, metacharacter-free,
nonempty pattern: non-overlapping leftmost occurrences become the
odd-indexed tokens. -/
def litSplit (pat l : List Char) : List (List Char) :=
  litSplitGo pat (l.length + 1) l

/-! ### Specification-side definitions

These follow the wording of the specification (not the source); they are
compared against the source-derived definitions above. -/

/-- Claim C2's wording: the query contains no uppercase letters. -/
def noUppercaseLetters (q : String) : Bool :=
  q.data.all (fun c => !c.isUpper)

/-- Worker for `nextLineStartFrom`; the `fuel` argument only makes the
upward scan structural. -/
def nextLineStartGo (f : List Char) : Nat → Nat → Nat
  | 0, _ => f.length
  | fuel + 1, k =>
      if f.length ≤ k then f.length
      else if isLineStartB f k then k else nextLineStartGo f fuel (k + 1)

/-- The start of the first complete logical line at or after byte `k`
(the end of file when none follows). -/
def nextLineStartFrom (f : List Char) (k : Nat) : Nat :=
  nextLineStartGo f (f.length + 1) k

/-- The byte offset `int(percentage * file_size)` that percentage seek
jumps to (truncation equals the floor since the product is nonnegative). -/
def percOffset (f : List Char) (p : ℚ) : Nat :=
  (⌊p * (f.length : ℚ)⌋).toNat

/-- Claim C3's wording of percentage seek: jump to
`floor(p * fileSize)`, snap forward to the start of the next complete
line, then apply the last-page clamp. -/
def seek_to_percentage_claimed (f : List Char) (rows cols : Nat) (p : ℚ)
    (s : FState) : FState :=
  let off := (⌊p * (f.length : ℚ)⌋).toNat
  clamp_position_to_last_page f rows cols ⟨nextLineStartFrom f off, s.col⟩

/-- The largest line start strictly below byte `k` (0 for `k = 0`). -/
def lastStartBelow (f : List Char) : Nat → Nat
  | 0 => 0
  | k + 1 => if isLineStartB f k then k else lastStartBelow f k

/-- Lexicographic order on cursor positions: byte offset first, then the
intra-line column offset. -/
def lexLe (a b : FState) : Prop :=
  a.pos < b.pos ∨ (a.pos = b.pos ∧ a.col ≤ b.col)

instance (a b : FState) : Decidable (lexLe a b) := by
  unfold lexLe
  infer_instance

/-- A well-formed cursor position: within the file, with a zero column at
the end-of-file sentinel. -/
def ValidPos (f : List Char) (s : FState) : Prop :=
  s.pos ≤ f.length ∧ (s.pos = f.length → s.col = 0)

instance (f : List Char) (s : FState) : Decidable (ValidPos f s) := by
  unfold ValidPos
  infer_instance

/-- The `re.IGNORECASE` flag that `compile_smartcase_regex` passes for
query `q`, observed through the probe library `flagLib`. -/
def smartcaseIgnorecaseFlag (q : String) : Bool :=
  match compile_smartcase_regex flagLib q with
  | .ok m => m []
  | .error _ => false

/-- Whether the smartcase compilation of literal query `q` matches the
line `line`, under the literal-pattern library model. -/
def smartSearchLit (q line : String) : Option Bool :=
  match compile_smartcase_regex litLib q with
  | .ok m => some (m line.data)
  | .error _ => none

/-- Pointwise overlay of one rule's marks onto a mask: marked positions
take `color`, unmarked ones keep their previous value, positions beyond
the marks are unchanged.  Used to characterize `applyTokens`. -/
def overlay (color : Nat) (marks : List Bool) (mask : List Nat) : List Nat :=
  List.zipWith (fun b x => if b then color else x) marks mask ++ mask.drop marks.length

/-! ## Lemmas about SearchHistory -/

theorem pyDedupAux_not_mem_of_mem_seen :
    ∀ (l seen : List String) (a : String), a ∈ seen → a ∉ pyDedupAux seen l := by
  intro l
  induction l with
  | nil =>
      intro seen a ha h
      simp [pyDedupAux] at h
  | cons b t ih =>
      intro seen a ha h
      by_cases hb : b ∈ seen
      · rw [pyDedupAux, if_pos hb] at h
        exact ih seen a ha h
      · rw [pyDedupAux, if_neg hb] at h
        rcases List.mem_cons.mp h with rfl | h2
        · exact hb ha
        · exact ih (b :: seen) a (List.mem_cons_of_mem _ ha) h2

theorem mem_of_mem_pyDedupAux :
    ∀ (l seen : List String) (a : String), a ∈ pyDedupAux seen l → a ∈ l := by
  intro l
  induction l with
  | nil =>
      intro seen a h
      simp [pyDedupAux] at h
  | cons b t ih =>
      intro seen a h
      by_cases hb : b ∈ seen
      · rw [pyDedupAux, if_pos hb] at h
        exact List.mem_cons_of_mem _ (ih seen a h)
      · rw [pyDedupAux, if_neg hb] at h
        rcases List.mem_cons.mp h with rfl | h2
        · exact List.mem_cons_self _ _
        · exact List.mem_cons_of_mem _ (ih (b :: seen) a h2)

theorem pyDedupAux_nodup :
    ∀ (l seen : List String), (pyDedupAux seen l).Nodup := by
  intro l
  induction l with
  | nil =>
      intro seen
      simp [pyDedupAux]
  | cons b t ih =>
      intro seen
      by_cases hb : b ∈ seen
      · rw [pyDedupAux, if_pos hb]
        exact ih seen
      · rw [pyDedupAux, if_neg hb]
        refine List.nodup_cons.mpr ⟨?_, ih (b :: seen)⟩
        exact pyDedupAux_not_mem_of_mem_seen t (b :: seen) b (List.mem_cons_self _ _)

theorem pyDedupAux_eq_self :
    ∀ (l seen : List String), l.Nodup → (∀ a ∈ l, a ∉ seen) →
      pyDedupAux seen l = l := by
  intro l
  induction l with
  | nil =>
      intro seen _ _
      rfl
  | cons b t ih =>
      intro seen hnd hsn
      obtain ⟨hb, ht⟩ := List.nodup_cons.mp hnd
      rw [pyDedupAux, if_neg (hsn b (List.mem_cons_self _ _))]
      congr 1
      apply ih (b :: seen) ht
      intro a ha
      intro hmem
      rcases List.mem_cons.mp hmem with rfl | h2
      · exact hb ha
      · exact hsn a (List.mem_cons_of_mem _ ha) h2

theorem pyDedup_eq_self {l : List String} (h : l.Nodup) : pyDedup l = l :=
  pyDedupAux_eq_self l [] h (by simp)

theorem insert_search_query_eq (q : String) (qs : List String) :
    insert_search_query q qs = q :: (pyDedupAux [q] qs).take 99 := by
  simp [insert_search_query, pyDedup, pyDedupAux, List.take_succ_cons]

theorem not_mem_tail_insert (q : String) (qs : List String) :
    q ∉ (pyDedupAux [q] qs).take 99 := by
  intro hmem
  exact pyDedupAux_not_mem_of_mem_seen qs [q] q (List.mem_singleton_self q)
    (List.take_subset _ _ hmem)

theorem insertAll_eq_reverse_take :
    ∀ (rs : List String), rs.Nodup →
      rs.foldl (fun s r => insert_search_query r s) [] = rs.reverse.take 100 := by
  intro rs
  induction rs using List.reverseRecOn with
  | nil => simp
  | append_singleton rs r ih =>
      intro hnd
      have hrs : rs.Nodup := hnd.sublist (List.sublist_append_left rs [r])
      have hr : r ∉ rs := by
        rcases List.nodup_append.mp hnd with ⟨-, -, hdisj⟩
        intro hmem
        exact hdisj hmem (List.mem_singleton_self r)
      rw [List.foldl_append, ih hrs]
      have hnodup : (r :: rs.reverse.take 100).Nodup := by
        refine List.nodup_cons.mpr ⟨?_, ?_⟩
        · intro hmem
          exact hr (List.mem_reverse.mp (List.take_subset _ _ hmem))
        · exact (List.nodup_reverse.mpr hrs).sublist (List.take_sublist _ _)
      simp only [List.foldl_cons, List.foldl_nil, insert_search_query]
      rw [pyDedup_eq_self hnodup]
      rw [List.reverse_append, List.reverse_singleton]
      simp only [List.singleton_append, List.take_succ_cons, List.take_take]
      norm_num

/-! ## Lemmas about config validation -/

theorem validateColors_ok_iff :
    ∀ (l : List (String × Int)),
      validateColors l = .ok () ↔ ∀ rc ∈ l, 0 ≤ rc.2 ∧ rc.2 ≤ 255 := by
  intro l
  induction l with
  | nil => simp [validateColors]
  | cons rc rest ih =>
      obtain ⟨regex, color⟩ := rc
      by_cases h : color < 0 ∨ color > 255
      · simp [validateColors, h]
        intro hc1 hc2
        omega
      · simp [validateColors, h, ih]
        omega

theorem validateColors_error_code :
    ∀ (l : List (String × Int)) (e : PyExn),
      validateColors l = .error e → ∃ msg, e = .exit_failure EX_NOINPUT msg := by
  intro l
  induction l with
  | nil => simp [validateColors]
  | cons rc rest ih =>
      obtain ⟨regex, color⟩ := rc
      intro e
      by_cases h : color < 0 ∨ color > 255
      · simp [validateColors, h]
        intro he
        exact ⟨_, he.symm⟩
      · simp [validateColors, h]
        exact ih e

/-! ## Lemmas about the color-mask compositor -/

theorem tokenMask_length :
    ∀ (ts : List (List Char)) (index : Nat),
      (tokenMask index ts).length = ts.flatten.length := by
  intro ts
  induction ts with
  | nil => intro index; rfl
  | cons t ts ih =>
      intro index
      simp [tokenMask, ih]

theorem overlay_nil (color : Nat) (mask : List Nat) :
    overlay color [] mask = mask := by
  simp [overlay]

theorem overlay_cons (color : Nat) (b : Bool) (bs : List Bool) (x : Nat)
    (m : List Nat) :
    overlay color (b :: bs) (x :: m) = (if b then color else x) :: overlay color bs m := by
  simp [overlay]

theorem overlay_length :
    ∀ (bs : List Bool) (m : List Nat) (color : Nat), bs.length ≤ m.length →
      (overlay color bs m).length = m.length := by
  intro bs
  induction bs with
  | nil => intro m color _; simp [overlay]
  | cons b bs ih =>
      intro m color h
      match m with
      | [] => simp at h
      | x :: m =>
          rw [overlay_cons]
          simp only [List.length_cons] at h ⊢
          rw [ih m color (Nat.le_of_succ_le_succ h)]

theorem overlay_replicate_false :
    ∀ (n : Nat) (m : List Nat) (bs : List Bool) (color : Nat), n ≤ m.length →
      overlay color (List.replicate n false ++ bs) m =
        m.take n ++ overlay color bs (m.drop n) := by
  intro n
  induction n with
  | zero => intro m bs color _; simp
  | succ n ih =>
      intro m bs color h
      match m with
      | [] => simp at h
      | x :: m =>
          simp only [List.replicate_succ, List.cons_append, List.take_succ_cons,
            List.drop_succ_cons]
          rw [overlay_cons, ih m bs color (Nat.le_of_succ_le_succ h)]
          simp

theorem overlay_replicate_true :
    ∀ (n : Nat) (m : List Nat) (bs : List Bool) (color : Nat), n ≤ m.length →
      overlay color (List.replicate n true ++ bs) m =
        List.replicate n color ++ overlay color bs (m.drop n) := by
  intro n
  induction n with
  | zero => intro m bs color _; simp
  | succ n ih =>
      intro m bs color h
      match m with
      | [] => simp at h
      | x :: m =>
          simp only [List.replicate_succ, List.cons_append, List.drop_succ_cons]
          rw [overlay_cons, ih m bs color (Nat.le_of_succ_le_succ h)]
          simp

theorem overlay_getD :
    ∀ (bs : List Bool) (m : List Nat) (color i : Nat), i < m.length →
      (overlay color bs m).getD i 0 =
        if bs.getD i false then color else m.getD i 0 := by
  intro bs
  induction bs with
  | nil => intro m color i _; simp [overlay]
  | cons b bs ih =>
      intro m color i hi
      match m with
      | [] => simp at hi
      | x :: m =>
          rw [overlay_cons]
          match i with
          | 0 => simp
          | i + 1 =>
              simp only [List.getD_cons_succ]
              exact ih m color i (by simpa using hi)

theorem setSlice_take (m : List Nat) (col n color : Nat) (h : col ≤ m.length) :
    (setSlice m col n color).take (col + n) = m.take col ++ List.replicate n color := by
  unfold setSlice
  apply List.take_left'
  simp [List.length_take, Nat.min_eq_left h]

theorem setSlice_drop (m : List Nat) (col n color : Nat) (h : col ≤ m.length) :
    (setSlice m col n color).drop (col + n) = m.drop (col + n) := by
  unfold setSlice
  apply List.drop_left'
  simp [List.length_take, Nat.min_eq_left h]

theorem setSlice_length (m : List Nat) (col n color : Nat) (h : col + n ≤ m.length) :
    (setSlice m col n color).length = m.length := by
  unfold setSlice
  simp [List.length_take, List.length_drop]
  omega

theorem applyTokens_cons (color index col : Nat) (t : List Char)
    (ts : List (List Char)) (mask : List Nat) :
    applyTokens color index col (t :: ts) mask =
      applyTokens color (index + 1) (col + t.length) ts
        (if index % 2 == 1 then setSlice mask col t.length color else mask) := rfl

theorem tokenMask_cons (index : Nat) (t : List Char) (ts : List (List Char)) :
    tokenMask index (t :: ts) =
      List.replicate t.length (index % 2 == 1) ++ tokenMask (index + 1) ts := rfl

theorem applyTokens_eq_overlay :
    ∀ (ts : List (List Char)) (index col : Nat) (mask : List Nat) (color : Nat),
      col + ts.flatten.length ≤ mask.length →
      applyTokens color index col ts mask =
        mask.take col ++ overlay color (tokenMask index ts) (mask.drop col) := by
  intro ts
  induction ts with
  | nil =>
      intro index col mask color _
      simp [applyTokens, tokenMask, overlay_nil, List.take_append_drop]
  | cons t ts ih =>
      intro index col mask color h
      simp only [List.flatten_cons, List.length_append] at h
      rw [applyTokens_cons, tokenMask_cons]
      by_cases hodd : (index % 2 == 1 : Bool) = true
      · rw [if_pos hodd, hodd]
        have hcol : col ≤ mask.length := by omega
        have hlen : (setSlice mask col t.length color).length = mask.length :=
          setSlice_length mask col t.length color (by omega)
        rw [ih (index + 1) (col + t.length) _ color (by rw [hlen]; omega)]
        rw [setSlice_take mask col t.length color hcol,
          setSlice_drop mask col t.length color hcol]
        have hrep : overlay color (List.replicate t.length true ++ tokenMask (index + 1) ts)
            (mask.drop col) =
            List.replicate t.length color ++
              overlay color (tokenMask (index + 1) ts) ((mask.drop col).drop t.length) := by
          apply overlay_replicate_true
          simp only [List.length_drop]
          omega
        rw [hrep, List.drop_drop]
        simp [List.append_assoc, Nat.add_comm]
      · rw [if_neg hodd, Bool.not_eq_true] at *
        rw [hodd]
        rw [ih (index + 1) (col + t.length) mask color (by omega)]
        have hrep : overlay color (List.replicate t.length false ++ tokenMask (index + 1) ts)
            (mask.drop col) =
            (mask.drop col).take t.length ++
              overlay color (tokenMask (index + 1) ts) ((mask.drop col).drop t.length) := by
          apply overlay_replicate_false
          simp only [List.length_drop]
          omega
        rw [hrep, List.drop_drop]
        rw [List.take_add]
        simp [List.append_assoc, Nat.add_comm]

theorem generate_color_mask_spec :
    ∀ (rules : List (CompiledRegex × Nat)) (line : List Char),
      (∀ rc ∈ rules, ∀ l, (rc.1 l).flatten = l) →
      (generate_color_mask rules line).length = line.length ∧
      ∀ i, i < line.length →
        (generate_color_mask rules line).getD i 0 = lastMarkedColor rules line i := by
  intro rules
  induction rules using List.reverseRecOn with
  | nil =>
      intro line _
      constructor
      · simp [generate_color_mask]
      · intro i hi
        simp [generate_color_mask, lastMarkedColor, NO_COLOR, List.getD]
  | append_singleton rules rc ih =>
      intro line hjoin
      obtain ⟨r, c⟩ := rc
      have hrules : ∀ rc ∈ rules, ∀ l, (rc.1 l).flatten = l := fun rc h =>
        hjoin rc (List.mem_append_left _ h)
      have hr : (r line).flatten = line :=
        hjoin (r, c) (List.mem_append_right _ (List.mem_singleton_self _)) line
      obtain ⟨ihlen, ihget⟩ := ih line hrules
      have hunfold : generate_color_mask (rules ++ [(r, c)]) line =
          applyTokens c 0 0 (r line) (generate_color_mask rules line) := by
        simp [generate_color_mask, List.foldl_append]
      have happ : applyTokens c 0 0 (r line) (generate_color_mask rules line) =
          overlay c (ruleMask r line) (generate_color_mask rules line) := by
        rw [applyTokens_eq_overlay (r line) 0 0 _ c (by rw [hr, ihlen]; omega)]
        simp [ruleMask]
      have hmlen : (ruleMask r line).length = line.length := by
        rw [ruleMask, tokenMask_length, hr]
      constructor
      · rw [hunfold, happ, overlay_length _ _ _ (by rw [hmlen, ihlen])]
        exact ihlen
      · intro i hi
        rw [hunfold, happ, overlay_getD _ _ _ _ (by rw [ihlen]; exact hi), ihget i hi]
        unfold lastMarkedColor
        rw [List.filter_append]
        by_cases hm : (ruleMask r line).getD i false
        · rw [if_pos hm]
          have hfs : List.filter (fun rc => (ruleMask rc.1 line).getD i false) [(r, c)] =
              [(r, c)] := by
            simp only [List.filter_singleton]
            rw [hm]
            rfl
          rw [hfs, List.getLast?_append_of_ne_nil _ (by simp)]
          rfl
        · rw [if_neg hm]
          have hmf : (ruleMask r line).getD i false = false := by
            simpa using hm
          have hfs : List.filter (fun rc => (ruleMask rc.1 line).getD i false) [(r, c)] =
              [] := by
            simp only [List.filter_singleton]
            rw [hmf]
            rfl
          rw [hfs, List.append_nil]

/-! ## Lemmas about the literal splitter -/

theorem litSplitGo_flatten :
    ∀ (fuel : Nat) (pat l : List Char), (litSplitGo pat fuel l).flatten = l := by
  intro fuel
  induction fuel with
  | zero => intro pat l; simp [litSplitGo]
  | succ fuel ih =>
      intro pat l
      unfold litSplitGo
      by_cases hpat : pat = []
      · simp [hpat]
      · rw [if_neg hpat]
        match hf : findOcc pat l with
        | none => simp
        | some i =>
            simp only [List.flatten_cons, ih]
            have hf' : List.find? (fun j => pat.isPrefixOf (l.drop j))
                (List.range (l.length + 1)) = some i := hf
            have hpre0 := @List.find?_some Nat (fun j => pat.isPrefixOf (l.drop j)) i
              (List.range (l.length + 1)) hf'
            have hpre : pat.isPrefixOf (l.drop i) := by simpa using hpre0
            have hprefix : pat <+: l.drop i := List.isPrefixOf_iff_prefix.mp hpre
            obtain ⟨t, ht⟩ := hprefix
            have hdrop : l.drop (i + pat.length) = t := by
              rw [← List.drop_drop, ← ht, List.drop_left]
            rw [hdrop, ht]
            exact List.take_append_drop i l

theorem litSplit_flatten (pat l : List Char) : (litSplit pat l).flatten = l :=
  litSplitGo_flatten (l.length + 1) pat l

/-! ## Lemmas about line splitting -/

theorem breakAfterNl_append_eq (l : List Char) :
    (breakAfterNl l).1 ++ (breakAfterNl l).2 = l := by
  induction l with
  | nil => rfl
  | cons c cs ih =>
      by_cases h : c = '\n'
      · simp [breakAfterNl, h]
      · simp only [breakAfterNl, if_neg h]
        simpa using ih

theorem breakAfterNl_fst_eq_nil_iff (l : List Char) :
    (breakAfterNl l).1 = [] ↔ l = [] := by
  induction l with
  | nil => simp [breakAfterNl]
  | cons c cs ih =>
      by_cases h : c = '\n'
      · simp [breakAfterNl, h]
      · simp [breakAfterNl, if_neg h]

theorem breakAfterNl_no_interior_nl (l : List Char) :
    ∀ c ∈ (breakAfterNl l).1.dropLast, c ≠ '\n' := by
  induction l with
  | nil => simp [breakAfterNl]
  | cons c cs ih =>
      by_cases h : c = '\n'
      · simp [breakAfterNl, h]
      · simp only [breakAfterNl, if_neg h]
        intro x hx
        by_cases hnil : (breakAfterNl cs).1 = []
        · simp [hnil] at hx
        · rw [List.dropLast_cons_of_ne_nil hnil] at hx
          rcases List.mem_cons.mp hx with rfl | hx2
          · exact h
          · exact ih x hx2

theorem breakAfterNl_fst_getLast?_of_snd_ne_nil (l : List Char)
    (h : (breakAfterNl l).2 ≠ []) : (breakAfterNl l).1.getLast? = some '\n' := by
  induction l with
  | nil => simp [breakAfterNl] at h
  | cons c cs ih =>
      by_cases hc : c = '\n'
      · simp [breakAfterNl, hc]
      · simp only [breakAfterNl, if_neg hc] at h ⊢
        have h2 := ih h
        rw [List.getLast?_cons, h2]
        rfl

theorem breakAfterNl_of_no_nl (l : List Char) (h : '\n' ∉ l) :
    breakAfterNl l = (l, []) := by
  induction l with
  | nil => rfl
  | cons c cs ih =>
      have hc : c ≠ '\n' := fun hx => h (hx ▸ List.mem_cons_self _ _)
      have hcs : '\n' ∉ cs := fun hx => h (List.mem_cons_of_mem _ hx)
      simp [breakAfterNl, if_neg hc, ih hcs]

theorem breakAfterNl_idem (l : List Char) :
    breakAfterNl ((breakAfterNl l).1) = ((breakAfterNl l).1, []) := by
  induction l with
  | nil => rfl
  | cons c cs ih =>
      by_cases h : c = '\n'
      · subst h
        rfl
      · simp only [breakAfterNl, if_neg h]
        rw [ih]

theorem breakAfterNl_snd_length (l : List Char) (h : l ≠ []) :
    (breakAfterNl l).2.length < l.length := by
  have hfst : (breakAfterNl l).1 ≠ [] := fun hx =>
    h ((breakAfterNl_fst_eq_nil_iff l).mp hx)
  have hjoin := breakAfterNl_append_eq l
  have : (breakAfterNl l).1.length + (breakAfterNl l).2.length = l.length := by
    rw [← List.length_append, hjoin]
  have : 0 < (breakAfterNl l).1.length := List.length_pos.mpr hfst
  omega

theorem splitAux_flatten (l : List Char) :
    ∀ acc : List Char, (splitAux acc l).flatten = acc.reverse ++ l := by
  induction l with
  | nil =>
      intro acc
      by_cases h : acc = []
      · simp [splitAux, h]
      · simp [splitAux, h]
  | cons c cs ih =>
      intro acc
      by_cases h : c = '\n'
      · subst h
        simp [splitAux, ih]
      · simp [splitAux, if_neg h, ih]

theorem splitlinesKeep_flatten (l : List Char) : (splitlinesKeep l).flatten = l := by
  simpa using splitAux_flatten l []

theorem splitAux_eq_nil_iff (l : List Char) :
    ∀ acc : List Char, splitAux acc l = [] ↔ (acc = [] ∧ l = []) := by
  induction l with
  | nil =>
      intro acc
      by_cases h : acc = []
      · simp [splitAux, h]
      · simp [splitAux, h]
  | cons c cs ih =>
      intro acc
      by_cases h : c = '\n'
      · simp [splitAux, h]
      · simp [splitAux, if_neg h, ih]

theorem splitlinesKeep_eq_nil_iff (l : List Char) :
    splitlinesKeep l = [] ↔ l = [] := by
  rw [splitlinesKeep, splitAux_eq_nil_iff]
  simp

theorem splitAux_ne_nil_mem (l : List Char) :
    ∀ (acc : List Char) (x : List Char), x ∈ splitAux acc l → x ≠ [] := by
  induction l with
  | nil =>
      intro acc x hx
      by_cases h : acc = []
      · simp [splitAux, h] at hx
      · rw [splitAux, if_neg h] at hx
        rcases List.mem_singleton.mp hx with rfl
        simpa using h
  | cons c cs ih =>
      intro acc x hx
      by_cases h : c = '\n'
      · subst h
        rw [splitAux, if_pos rfl] at hx
        rcases List.mem_cons.mp hx with rfl | hx2
        · simp
        · exact ih [] x hx2
      · rw [splitAux, if_neg h] at hx
        exact ih (c :: acc) x hx

theorem splitlinesKeep_ne_nil_mem (l : List Char) (x : List Char)
    (hx : x ∈ splitlinesKeep l) : x ≠ [] :=
  splitAux_ne_nil_mem l [] x hx

theorem splitAux_unfold (l : List Char) :
    ∀ acc : List Char, acc ≠ [] ∨ l ≠ [] →
      splitAux acc l =
        (acc.reverse ++ (breakAfterNl l).1) :: splitlinesKeep ((breakAfterNl l).2) := by
  induction l with
  | nil =>
      intro acc hne
      have h : acc ≠ [] := by
        rcases hne with h | h
        · exact h
        · exact absurd rfl h
      simp [splitAux, h, breakAfterNl, splitlinesKeep]
  | cons c cs ih =>
      intro acc _
      by_cases h : c = '\n'
      · subst h
        simp [splitAux, breakAfterNl, splitlinesKeep]
      · rw [splitAux, if_neg h]
        simp only [breakAfterNl, if_neg h]
        by_cases hcs : cs = []
        · subst hcs
          simp [splitAux, breakAfterNl, splitlinesKeep]
        · rw [ih (c :: acc) (Or.inl (by simp))]
          simp

theorem splitlinesKeep_unfold (l : List Char) (h : l ≠ []) :
    splitlinesKeep l = (breakAfterNl l).1 :: splitlinesKeep ((breakAfterNl l).2) := by
  rw [splitlinesKeep, splitAux_unfold l [] (Or.inr h)]
  simp

theorem breakAfterNl_append_of_mem (X Z : List Char) (h : '\n' ∈ X) :
    breakAfterNl (X ++ Z) = ((breakAfterNl X).1, (breakAfterNl X).2 ++ Z) := by
  induction X with
  | nil => simp at h
  | cons c cs ih =>
      by_cases hc : c = '\n'
      · simp [breakAfterNl, hc]
      · have hcs : '\n' ∈ cs := by
          rcases List.mem_cons.mp h with hcc | hcc
          · exact absurd hcc.symm hc
          · exact hcc
        simp only [List.cons_append, breakAfterNl, if_neg hc, List.append_eq]
        rw [ih hcs]

theorem splitlinesKeep_nil : splitlinesKeep [] = [] := rfl

theorem splitlinesKeep_append :
    ∀ (n : Nat) (X Z : List Char), X.length ≤ n → X.getLast? = some '\n' →
      splitlinesKeep (X ++ Z) = splitlinesKeep X ++ splitlinesKeep Z := by
  intro n
  induction n with
  | zero =>
      intro X Z hl h
      have : X = [] := List.eq_nil_of_length_eq_zero (Nat.le_zero.mp hl)
      rw [this] at h
      simp at h
  | succ n ih =>
      intro X Z hl h
      have hX : X ≠ [] := by
        intro hx
        rw [hx] at h
        simp at h
      have hmem : '\n' ∈ X := by
        have hgl : X.getLast hX = '\n' := by
          rw [List.getLast?_eq_getLast X hX] at h
          exact Option.some.inj h
        rw [← hgl]
        exact List.getLast_mem hX
      by_cases hsnd : (breakAfterNl X).2 = []
      · rw [splitlinesKeep_unfold (X ++ Z) (by simp [hX]),
          breakAfterNl_append_of_mem X Z hmem, splitlinesKeep_unfold X hX, hsnd]
        simp [splitlinesKeep_nil]
      · rw [splitlinesKeep_unfold (X ++ Z) (by simp [hX]),
          breakAfterNl_append_of_mem X Z hmem, splitlinesKeep_unfold X hX]
        have hend2 : (breakAfterNl X).2.getLast? = some '\n' := by
          rw [← breakAfterNl_append_eq X] at h
          rwa [List.getLast?_append_of_ne_nil _ hsnd] at h
        have hlen2 : (breakAfterNl X).2.length ≤ n := by
          have := breakAfterNl_snd_length X hX
          omega
        rw [ih (breakAfterNl X).2 Z hlen2 hend2]
        simp

theorem getLastD_irrel {α : Type} (l : List α) (d1 d2 : α) (h : l ≠ []) :
    l.getLastD d1 = l.getLastD d2 := by
  rw [List.getLastD_eq_getLast?, List.getLastD_eq_getLast?, List.getLast?_eq_getLast l h]
  rfl

theorem lastLineOf_nil : lastLineOf [] = [] := rfl

/-- Decomposition of a nonempty byte string into the part before its last
line (empty or newline-terminated) and its last line (nonempty, with no
newline before its final character). -/
theorem lastLine_decomp :
    ∀ (n : Nat) (l : List Char), l.length ≤ n → l ≠ [] →
      ∃ A, l = A ++ lastLineOf l ∧ lastLineOf l ≠ [] ∧
        (A = [] ∨ A.getLast? = some '\n') ∧
        (∀ c ∈ (lastLineOf l).dropLast, c ≠ '\n') := by
  intro n
  induction n with
  | zero =>
      intro l hl hne
      exact absurd (List.eq_nil_of_length_eq_zero (Nat.le_zero.mp hl)) hne
  | succ n ih =>
      intro l hl hne
      have hu := splitlinesKeep_unfold l hne
      by_cases hsnd : (breakAfterNl l).2 = []
      · have hfst : (breakAfterNl l).1 = l := by
          have hj := breakAfterNl_append_eq l
          rw [hsnd, List.append_nil] at hj
          exact hj
        have hlast : lastLineOf l = l := by
          rw [lastLineOf, hu, hsnd, splitlinesKeep_nil]
          simp [hfst]
        refine ⟨[], by rw [hlast]; simp, by rw [hlast]; exact hne, Or.inl rfl, ?_⟩
        rw [hlast, ← hfst]
        exact breakAfterNl_no_interior_nl l
      · have hsplit2ne : splitlinesKeep ((breakAfterNl l).2) ≠ [] := by
          rw [ne_eq, splitlinesKeep_eq_nil_iff]
          exact hsnd
        have hlast : lastLineOf l = lastLineOf ((breakAfterNl l).2) := by
          rw [lastLineOf, hu, List.getLastD_cons, lastLineOf]
          exact getLastD_irrel _ _ _ hsplit2ne
        have hlen2 : (breakAfterNl l).2.length ≤ n := by
          have := breakAfterNl_snd_length l hne
          omega
        obtain ⟨A', hA', hLne, hAend, hInt⟩ := ih ((breakAfterNl l).2) hlen2 hsnd
        refine ⟨(breakAfterNl l).1 ++ A', ?_, by rw [hlast]; exact hLne, ?_, ?_⟩
        · rw [hlast, List.append_assoc, ← hA', breakAfterNl_append_eq]
        · right
          rcases hAend with rfl | hAe
          · rw [List.append_nil]
            exact breakAfterNl_fst_getLast?_of_snd_ne_nil l hsnd
          · have hA'ne : A' ≠ [] := by
              intro hx
              rw [hx] at hAe
              simp at hAe
            rw [List.getLast?_append_of_ne_nil _ hA'ne]
            exact hAe
        · rw [hlast]
          exact hInt

/-- A decomposition `f.take k = A ++ L` with `A` empty or
newline-terminated puts a line start at byte `A.length`. -/
theorem isLineStartB_of_decomp (f : List Char) (k : Nat) (A L : List Char)
    (hk : k ≤ f.length) (heq : f.take k = A ++ L) (hL : L ≠ [])
    (hA : A = [] ∨ A.getLast? = some '\n') :
    isLineStartB f A.length = true := by
  rcases hA with rfl | hA
  · simp [isLineStartB]
  · have hAne : A ≠ [] := by
      intro hx
      rw [hx] at hA
      simp at hA
    have hAp : 0 < A.length := List.length_pos.mpr hAne
    have hlen : A.length + L.length = k := by
      have hc := congrArg List.length heq
      rw [List.length_take, Nat.min_eq_left hk, List.length_append] at hc
      omega
    have hALt : A.length < k := by
      have := List.length_pos.mpr hL
      omega
    have hgetf : f.getD (A.length - 1) 'A' = '\n' := by
      have h1 : A.length - 1 < A.length := by omega
      have e1 : f.getD (A.length - 1) 'A' = (f.take k).getD (A.length - 1) 'A' := by
        rw [List.getD_eq_getElem?_getD, List.getD_eq_getElem?_getD, List.getElem?_take,
          if_pos (by omega)]
      have e2 : (A ++ L).getD (A.length - 1) 'A' = A.getD (A.length - 1) 'A' :=
        List.getD_append A L 'A' _ h1
      have e3 : A.getD (A.length - 1) 'A' = '\n' := by
        rw [List.getD_eq_getElem?_getD, ← List.getLast?_eq_getElem?, hA]
        rfl
      rw [e1, heq, e2, e3]
    unfold isLineStartB
    rw [hgetf]
    simp

/-- A decomposition `f.take k = A ++ L` with `L` free of interior newlines
admits no line start strictly between `A.length` and `k`. -/
theorem no_line_start_in_last_line (f : List Char) (k : Nat) (A L : List Char)
    (hk : k ≤ f.length) (heq : f.take k = A ++ L)
    (hInt : ∀ c ∈ L.dropLast, c ≠ '\n') :
    ∀ t, isLineStartB f t = true → t < k → t ≤ A.length := by
  intro t ht htk
  by_contra hgt
  push_neg at hgt
  have ht1 : 1 ≤ t := by omega
  have hnl : f.getD (t - 1) 'A' = '\n' := by
    unfold isLineStartB at ht
    rcases Bool.or_eq_true_iff.mp ht with h0 | hn
    · have : t = 0 := by simpa using h0
      omega
    · simpa using hn
  have hlen : A.length + L.length = k := by
    have hc := congrArg List.length heq
    rw [List.length_take, Nat.min_eq_left hk, List.length_append] at hc
    omega
  have hidx : t - 1 - A.length < L.length - 1 := by omega
  have hidx2 : t - 1 - A.length < L.dropLast.length := by
    rw [List.length_dropLast]
    exact hidx
  have e1 : f.getD (t - 1) 'A' = (f.take k).getD (t - 1) 'A' := by
    rw [List.getD_eq_getElem?_getD, List.getD_eq_getElem?_getD, List.getElem?_take,
      if_pos (by omega)]
  have e2 : (A ++ L).getD (t - 1) 'A' = L.getD (t - 1 - A.length) 'A' :=
    List.getD_append_right A L 'A' _ (by omega)
  have e3 : L.getD (t - 1 - A.length) 'A' = L.dropLast.getD (t - 1 - A.length) 'A' := by
    rw [List.getD_eq_getElem?_getD, List.getD_eq_getElem?_getD,
      List.getElem?_eq_getElem (by rw [List.length_dropLast] at hidx2; omega),
      List.getElem?_eq_getElem hidx2]
    rw [List.getElem_dropLast]
  have hmem : L.dropLast.getD (t - 1 - A.length) 'A' ∈ L.dropLast := by
    rw [List.getD_eq_getElem?_getD, List.getElem?_eq_getElem hidx2]
    exact List.getElem_mem hidx2
  have : L.dropLast.getD (t - 1 - A.length) 'A' = '\n' := by
    rw [← e3, ← e2, ← heq, ← e1, hnl]
  exact hInt _ hmem this

/-! ## Lemmas about readline -/

theorem readline_eq_nil_iff (f : List Char) (pos : Nat) :
    readline f pos = [] ↔ f.length ≤ pos := by
  rw [readline, breakAfterNl_fst_eq_nil_iff, List.drop_eq_nil_iff]

theorem readline_le_length (f : List Char) (pos : Nat) :
    pos + (readline f pos).length ≤ f.length ∨ f.length ≤ pos := by
  rcases Nat.lt_or_ge pos f.length with h | h
  · left
    have hj := breakAfterNl_append_eq (f.drop pos)
    have : (readline f pos).length ≤ (f.drop pos).length := by
      rw [readline]
      have := congrArg List.length hj
      rw [List.length_append] at this
      omega
    rw [List.length_drop] at this
    omega
  · right
    exact h

theorem readline_take_eq (f : List Char) (pos : Nat) :
    readline f pos = (f.drop pos).take (readline f pos).length := by
  conv_rhs => rw [← breakAfterNl_append_eq (f.drop pos)]
  rw [readline, List.take_left]

theorem take_append_readline (f : List Char) (pos : Nat) (hpos : pos ≤ f.length) :
    f.take (pos + (readline f pos).length) = f.take pos ++ readline f pos := by
  rw [List.take_add]
  congr 1
  exact (readline_take_eq f pos).symm

/-- A line read at a line start is the last line of the prefix extended by
it. -/
theorem lastLineOf_take_readline (f : List Char) (pos : Nat)
    (hpos : pos < f.length) (hst : isLineStartB f pos = true) :
    lastLineOf (f.take (pos + (readline f pos).length)) = readline f pos := by
  have hne : readline f pos ≠ [] := by
    rw [ne_eq, readline_eq_nil_iff]
    omega
  rw [take_append_readline f pos (by omega)]
  have hsingle : splitlinesKeep (readline f pos) = [readline f pos] := by
    rw [splitlinesKeep_unfold _ hne, readline, breakAfterNl_idem]
    simp [splitlinesKeep_nil]
  by_cases hp0 : pos = 0
  · subst hp0
    rw [List.take_zero, List.nil_append, lastLineOf, hsingle]
    rfl
  · have hp1 : 1 ≤ pos := by omega
    have htke : (f.take pos).getLast? = some '\n' := by
      have hnl : f.getD (pos - 1) 'A' = '\n' := by
        unfold isLineStartB at hst
        rcases Bool.or_eq_true_iff.mp hst with h0 | hn
        · have : pos = 0 := by simpa using h0
          omega
        · simpa using hn
      rw [List.getLast?_eq_getElem?, List.length_take, Nat.min_eq_left (by omega)]
      rw [List.getElem?_take, if_pos (by omega)]
      rw [List.getElem?_eq_getElem (by omega)]
      rw [List.getD_eq_getElem?_getD, List.getElem?_eq_getElem (by omega : pos - 1 < f.length)] at hnl
      simp at hnl
      rw [hnl]
  -- hmm
    rw [lastLineOf, splitlinesKeep_append (f.take pos).length (f.take pos) _ le_rfl htke,
      hsingle, List.getLastD_eq_getLast?, List.getLast?_append_of_ne_nil _ (by simp)]
    rfl

/-! ## Characterization of the backward line scan -/

/-- The chunk-reading loop of `prev_line_iterator` yields the last line of
the file prefix ending at `k`, and seeks back to its start, whatever
(positive) chunk size it starts from, given enough fuel. -/
theorem prevLineFirstGo_eq :
    ∀ (fuel : Nat) (f : List Char) (k cs : Nat),
      1 ≤ cs → k ≤ f.length → k - min cs k < fuel →
      prevLineFirstGo f k fuel cs =
        (lastLineOf (f.take k), k - (lastLineOf (f.take k)).length) := by
  intro fuel
  induction fuel with
  | zero =>
      intro f k cs h1 h2 h3
      omega
  | succ fuel ih =>
      intro f k cs h1 h2 h3
      have hlen_take : (f.take k).length = k := by
        rw [List.length_take]
        omega
      have hchunklen : ((f.take k).drop (k - min cs k)).length = min cs k := by
        rw [List.length_drop, hlen_take]
        omega
      rw [prevLineFirstGo]
      rw [if_neg (show ¬ f.length < k by omega)]
      dsimp only
      split
      case _ heq =>
        have hchunknil : (f.take k).drop (k - min cs k) = [] :=
          (splitlinesKeep_eq_nil_iff _).mp heq
        have hcsz0 : min cs k = 0 := by
          rw [← hchunklen, hchunknil]
          rfl
        have hk0 : k = 0 := by omega
        subst hk0
        simp [lastLineOf_nil]
      case _ c heq =>
        have hchne : (f.take k).drop (k - min cs k) ≠ [] := by
          intro hx
          rw [hx, splitlinesKeep_nil] at heq
          cases heq
        have hu := splitlinesKeep_unfold _ hchne
        rw [heq] at hu
        obtain ⟨hc1, hs2⟩ := List.cons.inj hu
        have hsnd : (breakAfterNl ((f.take k).drop (k - min cs k))).2 = [] :=
          (splitlinesKeep_eq_nil_iff _).mp hs2.symm
        have hc : (f.take k).drop (k - min cs k) = c := by
          conv_lhs => rw [← breakAfterNl_append_eq ((f.take k).drop (k - min cs k))]
          rw [hsnd, List.append_nil, ← hc1]
        have hclen : c.length = min cs k := by
          rw [← hc]
          exact hchunklen
        by_cases hkc : k = c.length
        · rw [if_pos hkc]
          have hdrop0 : k - min cs k = 0 := by omega
          have hchunkfull : (f.take k).drop (k - min cs k) = f.take k := by
            rw [hdrop0, List.drop_zero]
          rw [hchunkfull] at heq
          have hlast : lastLineOf (f.take k) = c := by
            rw [lastLineOf, heq]
            rfl
          rw [hlast]
          have : k - c.length = 0 := by omega
          rw [this]
        · rw [if_neg hkc]
          have hcszlt : min cs k < k := by omega
          apply ih f k (cs * 2) (by omega) h2
          omega
      case _ c0 c1 rest heq =>
        have hchne : (f.take k).drop (k - min cs k) ≠ [] := by
          intro hx
          rw [hx, splitlinesKeep_nil] at heq
          cases heq
        have hu := splitlinesKeep_unfold _ hchne
        rw [heq] at hu
        obtain ⟨hc0, hs2⟩ := List.cons.inj hu
        have hsnd : (breakAfterNl ((f.take k).drop (k - min cs k))).2 ≠ [] := by
          intro hx
          rw [hx, splitlinesKeep_nil] at hs2
          cases hs2
        have hc0end : c0.getLast? = some '\n' := by
          rw [hc0]
          exact breakAfterNl_fst_getLast?_of_snd_ne_nil _ hsnd
        have hdecomp : f.take k =
            ((f.take k).take (k - min cs k) ++ c0) ++
              (breakAfterNl ((f.take k).drop (k - min cs k))).2 := by
          rw [List.append_assoc, hc0, breakAfterNl_append_eq]
          exact (List.take_append_drop _ _).symm
        have hXend : ((f.take k).take (k - min cs k) ++ c0).getLast? = some '\n' := by
          have hc0ne : c0 ≠ [] := by
            intro hx
            rw [hx] at hc0end
            cases hc0end
          rw [List.getLast?_append_of_ne_nil _ hc0ne]
          exact hc0end
        have hsplit : splitlinesKeep (f.take k) =
            splitlinesKeep ((f.take k).take (k - min cs k) ++ c0) ++ (c1 :: rest) := by
          conv_lhs => rw [hdecomp]
          rw [splitlinesKeep_append
            ((f.take k).take (k - min cs k) ++ c0).length _ _ le_rfl hXend, ← hs2]
        have hlast : lastLineOf (f.take k) = (c1 :: rest).getLastD [] := by
          rw [lastLineOf, hsplit, List.getLastD_eq_getLast?,
            List.getLast?_append_of_ne_nil _ (by simp), ← List.getLastD_eq_getLast?]
        rw [hlast]

/-- `prevLineFirst` (fuel instantiated) computes the last line of the
prefix and its start position. -/
theorem prevLineFirst_eq (f : List Char) (k cs : Nat) (h1 : 1 ≤ cs)
    (h2 : k ≤ f.length) :
    prevLineFirst f k cs =
      (lastLineOf (f.take k), k - (lastLineOf (f.take k)).length) := by
  rw [prevLineFirst]
  exact prevLineFirstGo_eq (k + 1) f k cs h1 h2 (by omega)

/-- The first `prev_line_iterator` step from directly after a line read at
a line start yields exactly that line and returns to its start. -/
theorem prevLineFirst_readline (f : List Char) (pos cs : Nat) (h1 : 1 ≤ cs)
    (hpos : pos < f.length) (hst : isLineStartB f pos = true) :
    prevLineFirst f (pos + (readline f pos).length) cs = (readline f pos, pos) := by
  have hle : pos + (readline f pos).length ≤ f.length := by
    rcases readline_le_length f pos with h | h
    · exact h
    · omega
  rw [prevLineFirst_eq f _ cs h1 hle, lastLineOf_take_readline f pos hpos hst]
  have hne : readline f pos ≠ [] := by
    rw [ne_eq, readline_eq_nil_iff]
    omega
  simp

/-! ## Claim C3 -/

theorem seek_to_percentage_eq (f : List Char) (rows cols : Nat) (p : ℚ) (s : FState) :
    seek_to_percentage_of_file f rows cols p s =
      clamp_position_to_last_page f rows cols
        ⟨(prevLineFirst f (percOffset f p) 2048).2, s.col⟩ := rfl

theorem seek_to_percentage_claimed_eq (f : List Char) (rows cols : Nat) (p : ℚ)
    (s : FState) :
    seek_to_percentage_claimed f rows cols p s =
      clamp_position_to_last_page f rows cols
        ⟨nextLineStartFrom f (percOffset f p), s.col⟩ := rfl

theorem percOffset_cex : percOffset "abcd\nefgh\n".data (3 / 10) = 3 := by
  have hlen : "abcd\nefgh\n".data.length = 10 := rfl
  unfold percOffset
  rw [hlen]
  have h : (3 / 10 : ℚ) * ((10 : Nat) : ℚ) = 3 := by norm_num
  rw [h]
  rfl

/-- C3 counterexample: the claim states percentage seek snaps the cursor
forward to the start of the next complete logical line; but seeking to 30%
of the 10-byte file `"abcd\nefgh\n"` (offset 3, inside the first line)
moves the cursor back to offset 0, the start of the line containing the
offset, whereas the claimed forward snap (then the identical clamp) would
land at offset 5. -/
theorem c3_percentage_snaps_backward_cex :
    seek_to_percentage_of_file "abcd\nefgh\n".data 1 10 (3 / 10) ⟨0, 0⟩ = ⟨0, 0⟩ ∧
    seek_to_percentage_claimed "abcd\nefgh\n".data 1 10 (3 / 10) ⟨0, 0⟩ = ⟨5, 0⟩ ∧
    (⟨0, 0⟩ : FState) ≠ ⟨5, 0⟩ := by
  refine ⟨?_, ?_, by decide⟩
  · rw [seek_to_percentage_eq, percOffset_cex]
    decide
  · rw [seek_to_percentage_claimed_eq, percOffset_cex]
    decide

/-- C3 (amended): percentage seek first moves to byte offset
`floor(p * fileSize)`, then snaps the cursor backward to the largest line
start strictly below that offset — the start of the logical line
containing the offset, or of the previous line when the offset is itself a
line start; at offset 0 it stays — and then applies the last-page clamp
(with the column offset left untouched).  Stated for carriage-return-free
files, where the embedding's newline discipline matches
`bytes.splitlines`. -/
theorem c3_percentage_seek_snaps_backward :
    ∀ (f : List Char) (rows cols : Nat) (p : ℚ) (s : FState),
      0 ≤ p → p ≤ 1 → '\r' ∉ f →
      seek_to_percentage_of_file f rows cols p s =
        clamp_position_to_last_page f rows cols
          ⟨percOffset f p - (lastLineOf (f.take (percOffset f p))).length, s.col⟩ ∧
      isLineStartB f
        (percOffset f p - (lastLineOf (f.take (percOffset f p))).length) = true ∧
      (1 ≤ percOffset f p →
        percOffset f p - (lastLineOf (f.take (percOffset f p))).length < percOffset f p) ∧
      (∀ t, isLineStartB f t = true → t < percOffset f p →
        t ≤ percOffset f p - (lastLineOf (f.take (percOffset f p))).length) := by
  intro f rows cols p s hp0 hp1 _hcr
  have hoff : percOffset f p ≤ f.length := by
    unfold percOffset
    have h1 : p * (f.length : ℚ) ≤ (f.length : ℚ) := by
      calc p * (f.length : ℚ) ≤ 1 * (f.length : ℚ) := by
            apply mul_le_mul_of_nonneg_right hp1
            positivity
        _ = (f.length : ℚ) := one_mul _
    have h2 : ⌊p * (f.length : ℚ)⌋ ≤ (f.length : ℤ) := by
      calc ⌊p * (f.length : ℚ)⌋ ≤ ⌊(f.length : ℚ)⌋ := Int.floor_le_floor h1
        _ = (f.length : ℤ) := Int.floor_natCast _
    exact Int.toNat_le.mpr h2
  have hmain : seek_to_percentage_of_file f rows cols p s =
      clamp_position_to_last_page f rows cols
        ⟨percOffset f p - (lastLineOf (f.take (percOffset f p))).length, s.col⟩ := by
    rw [seek_to_percentage_eq, prevLineFirst_eq f (percOffset f p) 2048 (by omega) hoff]
  by_cases h0 : percOffset f p = 0
  · rw [h0]
    refine ⟨by rw [hmain, h0], by simp [isLineStartB], by omega, by omega⟩
  · have h1 : 1 ≤ percOffset f p := by omega
    have htkne : f.take (percOffset f p) ≠ [] := by
      intro hx
      have := congrArg List.length hx
      rw [List.length_take, Nat.min_eq_left hoff] at this
      simp at this
      omega
    obtain ⟨A, hA, hLne, hAend, hInt⟩ :=
      lastLine_decomp (f.take (percOffset f p)).length (f.take (percOffset f p)) le_rfl htkne
    have hAlen : A.length = percOffset f p - (lastLineOf (f.take (percOffset f p))).length := by
      have hc := congrArg List.length hA
      rw [List.length_take, Nat.min_eq_left hoff, List.length_append] at hc
      omega
    refine ⟨hmain, ?_, ?_, ?_⟩
    · rw [← hAlen]
      exact isLineStartB_of_decomp f (percOffset f p) A _ hoff hA hLne hAend
    · intro _
      have hLlen : (lastLineOf (f.take (percOffset f p))).length ≤ percOffset f p := by
        have hc := congrArg List.length hA
        rw [List.length_take, Nat.min_eq_left hoff, List.length_append] at hc
        omega
      have := List.length_pos.mpr hLne
      omega
    · intro t ht htlt
      rw [← hAlen]
      exact no_line_start_in_last_line f (percOffset f p) A _ hoff hA hInt t ht htlt

/-- Witness for C3: seeking to 30% of `"abcd\nefgh\n"` lands where the
backward snap followed by the clamp prescribes. -/
theorem c3_percentage_seek_snaps_backward_witness :
    (0 : ℚ) ≤ 3 / 10 ∧ (3 / 10 : ℚ) ≤ 1 ∧ '\r' ∉ "abcd\nefgh\n".data ∧
    seek_to_percentage_of_file "abcd\nefgh\n".data 1 10 (3 / 10) ⟨0, 0⟩ =
      clamp_position_to_last_page "abcd\nefgh\n".data 1 10
        ⟨percOffset "abcd\nefgh\n".data (3 / 10) -
          (lastLineOf ("abcd\nefgh\n".data.take
            (percOffset "abcd\nefgh\n".data (3 / 10)))).length, 0⟩ := by
  refine ⟨by norm_num, by norm_num, by decide, ?_⟩
  exact (c3_percentage_seek_snaps_backward "abcd\nefgh\n".data 1 10 (3 / 10) ⟨0, 0⟩
    (by norm_num) (by norm_num) (by decide)).1

/-! ## Claim C4 -/

theorem clamp_of_lexLe (f : List Char) (rows cols : Nat) (s : FState)
    (h : lexLe s (seek_to_last_page f rows cols)) :
    clamp_position_to_last_page f rows cols s = s := by
  unfold clamp_position_to_last_page
  dsimp only
  by_cases hlt : s.pos < (seek_to_last_page f rows cols).pos ∨
      (s.pos = (seek_to_last_page f rows cols).pos ∧
        s.col < (seek_to_last_page f rows cols).col)
  · rw [if_pos hlt]
  · rw [if_neg hlt]
    push_neg at hlt
    obtain ⟨hl1, hl2⟩ := hlt
    rcases h with h1 | ⟨h1, h2⟩
    · omega
    · have h3 := hl2 h1
      ext
      · omega
      · omega

theorem sanitizeChar_ne_nil (c : Char) : sanitizeChar c ≠ [] := by
  unfold sanitizeChar
  split
  · simp
  · split
    · simp
    · simp

theorem sanitize_line_ne_nil (l : List Char) (h : l ≠ []) : sanitize_line l ≠ [] := by
  match l with
  | c :: cs =>
      rw [sanitize_line, List.flatMap_cons]
      intro hx
      rcases List.append_eq_nil.mp hx with ⟨h1, -⟩
      exact sanitizeChar_ne_nil c h1

theorem seek_next_one (f : List Char) (cols : Nat) (s : FState) :
    _seek_next_wrapped_lines f cols 1 s = _seek_next_wrapped_line f cols s := rfl

theorem seek_prev_one (f : List Char) (cols : Nat) (s : FState) :
    seek_prev_wrapped_lines f cols 1 s = _seek_prev_wrapped_line f cols s := rfl

/-- The private forward/backward wrapped-line steps are inverse at a
line-start cursor with a column-aligned offset. -/
theorem step_roundtrip (f : List Char) (cols : Nat) (s : FState)
    (hcols : 1 ≤ cols) (hpos : s.pos < f.length) (hst : isLineStartB f s.pos = true)
    (halign : ∃ k, s.col = k * cols)
    (hbound : s.col = 0 ∨ s.col < (sanitize_line (readline f s.pos)).length) :
    _seek_prev_wrapped_line f cols (_seek_next_wrapped_line f cols s) = s := by
  obtain ⟨k, hk⟩ := halign
  have hlne : readline f s.pos ≠ [] := by
    rw [ne_eq, readline_eq_nil_iff]
    omega
  have hL1 : 1 ≤ (sanitize_line (readline f s.pos)).length :=
    List.length_pos.mpr (sanitize_line_ne_nil _ hlne)
  unfold _seek_next_wrapped_line
  dsimp only
  by_cases hge : (sanitize_line (readline f s.pos)).length ≤ s.col + cols
  · rw [if_pos hge]
    unfold _seek_prev_wrapped_line
    dsimp only
    rw [if_neg (by omega : ¬ 0 < 0)]
    rw [prevLineFirst_readline f s.pos 2048 (by omega) hpos hst]
    dsimp only
    rw [if_neg hlne]
    by_cases hfit : (sanitize_line (readline f s.pos)).length ≤ cols
    · rw [if_pos hfit]
      have hcol0 : s.col = 0 := by
        rcases hbound with h | h
        · exact h
        · rcases Nat.eq_zero_or_pos k with rfl | hkpos
          · simpa using hk
          · have : cols ≤ s.col := by
              rw [hk]
              calc cols = 1 * cols := (one_mul cols).symm
                _ ≤ k * cols := Nat.mul_le_mul_right cols hkpos
            omega
      ext
      · rfl
      · rw [hcol0]
    · rw [if_neg hfit]
      have hcolpos : s.col < (sanitize_line (readline f s.pos)).length := by
        rcases hbound with h | h
        · omega
        · exact h
      have hdiv : ((sanitize_line (readline f s.pos)).length - 1) / cols = k := by
        apply Nat.div_eq_of_lt_le
        · rw [← hk]
          omega
        · rw [Nat.succ_mul, ← hk]
          omega
      unfold lastMultipleBelow
      rw [hdiv]
      ext
      · rfl
      · rw [Nat.mul_comm, ← hk]
  · rw [if_neg hge]
    unfold _seek_prev_wrapped_line
    dsimp only
    rw [if_pos (by omega : 0 < s.col + cols)]
    ext
    · rfl
    · dsimp only
      omega

theorem percOffset_half18 :
    percOffset "aaaaa\nx\nx\nx\nx\nx\nx\n".data (1 / 2) = 9 := by
  have hlen : "aaaaa\nx\nx\nx\nx\nx\nx\n".data.length = 18 := rfl
  unfold percOffset
  rw [hlen]
  have h : (1 / 2 : ℚ) * ((18 : Nat) : ℚ) = 9 := by norm_num
  rw [h]
  rfl

/-- C4 counterexample: the claim quantifies over every navigation-reachable
interior position, but `seek_to_percentage_of_file` (like
`seek_to_start_of_file`) leaves `line_col` untouched, so navigation can
carry a stale column onto a shorter line.  On the 18-byte file
`"aaaaa\nx\nx\nx\nx\nx\nx\n"` with a 2-row, 3-column viewport, one forward
wrapped seek from the origin reaches `(0, 3)` (the first line wraps), and
a 50% percentage seek from there lands at byte offset 9 and snaps back to
the line start 8, producing the interior state `(8, 3)` — the last page is
`(14, 0)`, so no clamp interferes.  From `(8, 3)` the forward wrapped seek
crosses the one-character line to `(10, 0)` and the backward seek returns
to `(8, 0)`, not `(8, 3)`: the roundtrip loses the column. -/
theorem c4_wrapped_seek_roundtrip_cex :
    seek_next_wrapped_lines "aaaaa\nx\nx\nx\nx\nx\nx\n".data 2 3 1 ⟨0, 0⟩ = ⟨0, 3⟩ ∧
    seek_to_percentage_of_file "aaaaa\nx\nx\nx\nx\nx\nx\n".data 2 3 (1 / 2) ⟨0, 3⟩
      = ⟨8, 3⟩ ∧
    seek_to_last_page "aaaaa\nx\nx\nx\nx\nx\nx\n".data 2 3 = ⟨14, 0⟩ ∧
    seek_next_wrapped_lines "aaaaa\nx\nx\nx\nx\nx\nx\n".data 2 3 1 ⟨8, 3⟩ = ⟨10, 0⟩ ∧
    seek_prev_wrapped_lines "aaaaa\nx\nx\nx\nx\nx\nx\n".data 3 1 ⟨10, 0⟩ = ⟨8, 0⟩ ∧
    (⟨8, 0⟩ : FState) ≠ ⟨8, 3⟩ := by
  refine ⟨by decide, ?_, by decide, by decide, by decide, by decide⟩
  rw [seek_to_percentage_eq, percOffset_half18]
  decide

/-- C4 (amended): the roundtrip law holds for every interior line-start
cursor whose column offset is a multiple of the terminal width and either
zero or within the sanitized current line — the shape the wrapped-line
seeks themselves produce — but not for every navigation-reachable state,
because the percentage and goto-start seeks never reset `line_col` and can
leave a stale column beyond a shorter line, where the roundtrip snaps the
column to zero.  Under those provisos, one public forward wrapped-line
seek followed by one backward wrapped-line seek restores the cursor's byte
offset and column offset exactly.  Interior means the stepped position
does not pass the last-page position, so the forward seek's clamp is a
no-op; the claim covers files with lines longer than the 2048-byte chunk
size because the backward scan's chunk doubling is already proven
equivalent to the last-line characterization at every chunk size.  Stated
for carriage-return-free files, where the embedding's newline discipline
matches `bytes.splitlines`. -/
theorem c4_wrapped_seek_roundtrip :
    ∀ (f : List Char) (rows cols : Nat) (s : FState),
      1 ≤ cols → '\r' ∉ f →
      s.pos < f.length →
      isLineStartB f s.pos = true →
      (∃ k, s.col = k * cols) →
      (s.col = 0 ∨ s.col < (sanitize_line (readline f s.pos)).length) →
      lexLe (_seek_next_wrapped_lines f cols 1 s) (seek_to_last_page f rows cols) →
      seek_prev_wrapped_lines f cols 1 (seek_next_wrapped_lines f rows cols 1 s) = s := by
  intro f rows cols s hcols _hcr hpos hst halign hbound hint
  have hclamp : seek_next_wrapped_lines f rows cols 1 s = _seek_next_wrapped_line f cols s := by
    unfold seek_next_wrapped_lines
    rw [← seek_next_one f cols s]
    exact clamp_of_lexLe f rows cols _ hint
  rw [hclamp, seek_prev_one]
  exact step_roundtrip f cols s hcols hpos hst halign hbound

/-- Witness for C4: the file `"aaaaaaa\nbb\ncc\ndd\n"` with a 2-row,
5-column viewport; from the cursor at offset 0 the first line (7
characters) wraps, the forward seek moves to column 5, and the backward
seek returns to the origin. -/
theorem c4_wrapped_seek_roundtrip_witness :
    (1 ≤ 5 ∧ '\r' ∉ "aaaaaaa\nbb\ncc\ndd\n".data ∧
      (⟨0, 0⟩ : FState).pos < "aaaaaaa\nbb\ncc\ndd\n".data.length ∧
      isLineStartB "aaaaaaa\nbb\ncc\ndd\n".data 0 = true ∧
      lexLe (_seek_next_wrapped_lines "aaaaaaa\nbb\ncc\ndd\n".data 5 1 ⟨0, 0⟩)
        (seek_to_last_page "aaaaaaa\nbb\ncc\ndd\n".data 2 5)) ∧
    seek_prev_wrapped_lines "aaaaaaa\nbb\ncc\ndd\n".data 5 1
      (seek_next_wrapped_lines "aaaaaaa\nbb\ncc\ndd\n".data 2 5 1 ⟨0, 0⟩) = ⟨0, 0⟩ := by
  refine ⟨⟨by omega, by decide, by decide, by decide, by decide⟩, ?_⟩
  exact c4_wrapped_seek_roundtrip "aaaaaaa\nbb\ncc\ndd\n".data 2 5 ⟨0, 0⟩ (by omega)
    (by decide) (by decide) (by decide) ⟨0, by decide⟩ (Or.inl rfl) (by decide)

/-! ## Claim C5 -/

theorem lexLe_refl (s : FState) : lexLe s s := Or.inr ⟨rfl, le_rfl⟩

theorem lexLe_trans {a b c : FState} (h1 : lexLe a b) (h2 : lexLe b c) :
    lexLe a c := by
  rcases h1 with h1 | ⟨h1, h1c⟩ <;> rcases h2 with h2 | ⟨h2, h2c⟩
  · exact Or.inl (by omega)
  · exact Or.inl (by omega)
  · exact Or.inl (by omega)
  · exact Or.inr ⟨by omega, by omega⟩

/-- One private forward wrapped step never moves the cursor
lexicographically backward from a valid position, and preserves
validity. -/
theorem seek_next_step_mono (f : List Char) (cols : Nat) (s : FState)
    (hv : ValidPos f s) :
    lexLe s (_seek_next_wrapped_line f cols s) ∧
      ValidPos f (_seek_next_wrapped_line f cols s) := by
  obtain ⟨hv1, hv2⟩ := hv
  unfold _seek_next_wrapped_line
  dsimp only
  by_cases hnil : readline f s.pos = []
  · have hge : f.length ≤ s.pos := (readline_eq_nil_iff f s.pos).mp hnil
    have hpos : s.pos = f.length := by omega
    have hcol : s.col = 0 := hv2 hpos
    rw [hnil]
    rw [if_pos (by simp [sanitize_line])]
    constructor
    · exact Or.inr ⟨by simp, by omega⟩
    · exact ⟨by simpa using hv1, fun _ => rfl⟩
  · have hpos : s.pos < f.length := by
      rcases Nat.lt_or_ge s.pos f.length with h | h
      · exact h
      · exact absurd ((readline_eq_nil_iff f s.pos).mpr h) hnil
    have hlen1 : 1 ≤ (readline f s.pos).length := List.length_pos.mpr hnil
    have hle : s.pos + (readline f s.pos).length ≤ f.length := by
      rcases readline_le_length f s.pos with h | h
      · exact h
      · omega
    by_cases hge : (sanitize_line (readline f s.pos)).length ≤ s.col + cols
    · rw [if_pos hge]
      exact ⟨Or.inl (by dsimp only; omega), by dsimp only; omega, fun _ => rfl⟩
    · rw [if_neg hge]
      refine ⟨Or.inr ⟨rfl, by dsimp only; omega⟩, by dsimp only; omega,
        fun hx => absurd hx (by dsimp only; omega)⟩

/-- Iterated private forward wrapped steps never move the cursor
lexicographically backward from a valid position. -/
theorem seek_next_steps_mono (f : List Char) (cols : Nat) :
    ∀ (count : Nat) (s : FState), ValidPos f s →
      lexLe s (_seek_next_wrapped_lines f cols count s) ∧
        ValidPos f (_seek_next_wrapped_lines f cols count s) := by
  intro count
  induction count with
  | zero =>
      intro s hv
      exact ⟨lexLe_refl s, hv⟩
  | succ n ih =>
      intro s hv
      obtain ⟨h1, h2⟩ := seek_next_step_mono f cols s hv
      obtain ⟨h3, h4⟩ := ih (_seek_next_wrapped_line f cols s) h2
      exact ⟨lexLe_trans h1 h3, h4⟩

/-- C5 counterexample: the claim states a forward wrapped seek never
leaves the cursor earlier than its pre-call position, for every starting
cursor position; but on the file `"a\nb\nc\nd\n"` with a 1-row viewport,
starting from the end-of-file sentinel position 8 (beyond the last-page
position 6), one forward seek nets backward to byte 6, because the clamp
moves the cursor to the last-page position without consulting the pre-call
position. -/
theorem c5_forward_seek_nets_backward_cex :
    seek_next_wrapped_lines "a\nb\nc\nd\n".data 1 10 1 ⟨8, 0⟩ = ⟨6, 0⟩ ∧
    ¬ lexLe ⟨8, 0⟩ ⟨6, 0⟩ ∧
    ValidPos "a\nb\nc\nd\n".data ⟨8, 0⟩ := by
  refine ⟨by decide, by decide, by decide⟩

/-- C5 (amended): a forward wrapped seek of any count never leaves the
cursor lexicographically earlier than its pre-call position, provided the
pre-call position is valid (within the file, zero column at end of file)
and at or before the last-page position; starting beyond the last page the
clamp can net-move the cursor backward to the last-page position. -/
theorem c5_forward_seek_monotone :
    ∀ (f : List Char) (rows cols count : Nat) (s : FState),
      ValidPos f s →
      lexLe s (seek_to_last_page f rows cols) →
      lexLe s (seek_next_wrapped_lines f rows cols count s) := by
  intro f rows cols count s hv hlp
  obtain ⟨hstep, _⟩ := seek_next_steps_mono f cols count s hv
  unfold seek_next_wrapped_lines clamp_position_to_last_page
  dsimp only
  by_cases h : (_seek_next_wrapped_lines f cols count s).pos < (seek_to_last_page f rows cols).pos ∨
      ((_seek_next_wrapped_lines f cols count s).pos = (seek_to_last_page f rows cols).pos ∧
        (_seek_next_wrapped_lines f cols count s).col < (seek_to_last_page f rows cols).col)
  · rw [if_pos h]
    exact hstep
  · rw [if_neg h]
    exact hlp

/-- Witness for C5: from the valid pre-last-page position 4 on
`"a\nb\nc\nd\n"`, a forward seek moves to 6, not backward. -/
theorem c5_forward_seek_monotone_witness :
    ValidPos "a\nb\nc\nd\n".data ⟨4, 0⟩ ∧
    lexLe ⟨4, 0⟩ (seek_to_last_page "a\nb\nc\nd\n".data 1 10) ∧
    lexLe ⟨4, 0⟩ (seek_next_wrapped_lines "a\nb\nc\nd\n".data 1 10 1 ⟨4, 0⟩) := by
  refine ⟨by decide, by decide, ?_⟩
  exact c5_forward_seek_monotone "a\nb\nc\nd\n".data 1 10 1 ⟨4, 0⟩ (by decide) (by decide)

/-! ## Claim C8 -/

theorem searchFwdGo_not_found :
    ∀ (fuel : Nat) (m : List Char → Bool) (f : List Char) (pos : Nat),
      pos ≤ f.length →
      (∀ j, j ≤ f.length → pos ≤ j → m (sanitize_line (readline f j)) = false) →
      (searchFwdGo m f fuel pos).1 = false := by
  intro fuel
  induction fuel with
  | zero =>
      intro m f pos _ _
      rfl
  | succ fuel ih =>
      intro m f pos hpos hm
      rw [searchFwdGo]
      dsimp only
      by_cases hnil : readline f pos = []
      · rw [if_pos hnil]
      · rw [if_neg hnil]
        have hmm : ¬ (m (sanitize_line (readline f pos)) = true) := by
          rw [hm pos hpos le_rfl]
          simp
        rw [if_neg hmm]
        have hlen1 : 1 ≤ (readline f pos).length := List.length_pos.mpr hnil
        have hle : pos + (readline f pos).length ≤ f.length := by
          rcases readline_le_length f pos with h | h
          · exact h
          · exact absurd ((readline_eq_nil_iff f pos).mpr h) hnil
        apply ih m f _ hle
        intro j hj1 hj2
        exact hm j hj1 (by omega)

theorem searchBwdGo_not_found :
    ∀ (fuel : Nat) (m : List Char → Bool) (f : List Char) (pos : Nat),
      pos ≤ f.length →
      (∀ j, j ≤ pos → m (sanitize_line (lastLineOf (f.take j))) = false) →
      (searchBwdGo m f fuel pos).1 = false := by
  intro fuel
  induction fuel with
  | zero =>
      intro m f pos _ _
      rfl
  | succ fuel ih =>
      intro m f pos hpos hm
      rw [searchBwdGo]
      rw [prevLineFirst_eq f pos 2048 (by omega) hpos]
      dsimp only
      by_cases hnil : lastLineOf (f.take pos) = []
      · rw [if_pos hnil]
      · rw [if_neg hnil]
        have hmm : ¬ (m (sanitize_line (lastLineOf (f.take pos))) = true) := by
          rw [hm pos le_rfl]
          simp
        rw [if_neg hmm]
        apply ih m f _ (by omega)
        intro j hj
        exact hm j (by omega)

/-- C8: with any compiled query, a forward search over a region where no
line matches runs to end of file, reports the non-error sentinel `False`,
and the interrupt-handling wrapper restores the cursor's byte offset and
column offset exactly; symmetrically, a backward search with no match
before the cursor runs to the beginning of file, reports `False`, and the
cursor is restored exactly.  (The search functions never touch `line_col`,
and the wrapper re-seeks the saved byte offset on the `False` result.)
Stated for carriage-return-free files, where the embedding's newline
discipline matches `bytes.splitlines`. -/
theorem c8_search_not_found_restores :
    ∀ (lib : ReLib) (f : List Char) (rows cols : Nat) (q : String)
      (m : List Char → Bool) (s : FState),
      '\r' ∉ f →
      compile_smartcase_regex lib q = .ok m →
      s.pos ≤ f.length →
      ((∀ j, j ≤ f.length → s.pos ≤ j → m (sanitize_line (readline f j)) = false) →
        _search_with_interrupt_handling (_search_forwards lib f rows cols q s) s = .ok s ∧
        ∃ s1, _search_forwards lib f rows cols q s = .ok (false, s1)) ∧
      ((∀ j, j ≤ s.pos → m (sanitize_line (lastLineOf (f.take j))) = false) →
        _search_with_interrupt_handling (_search_backwards lib f q s) s = .ok s ∧
        ∃ s1, _search_backwards lib f q s = .ok (false, s1)) := by
  intro lib f rows cols q m s _hcr hcomp hpos
  constructor
  · intro hf
    have hle : s.pos + (readline f s.pos).length ≤ f.length := by
      rcases readline_le_length f s.pos with h | h
      · exact h
      · have hrn : readline f s.pos = [] := (readline_eq_nil_iff f s.pos).mpr h
        rw [hrn]
        simpa using hpos
    have hfalse : (searchFwdLoop m f (s.pos + (readline f s.pos).length)).1 = false := by
      rw [searchFwdLoop]
      apply searchFwdGo_not_found _ m f _ hle
      intro j hj1 hj2
      exact hf j hj1 (by omega)
    have hforwards : _search_forwards lib f rows cols q s =
        .ok (false, ⟨(searchFwdLoop m f (s.pos + (readline f s.pos).length)).2, s.col⟩) := by
      unfold _search_forwards
      rw [hcomp]
      dsimp only
      rw [if_neg (by rw [hfalse]; simp)]
    refine ⟨?_, ⟨_, hforwards⟩⟩
    rw [hforwards]
    rfl
  · intro hb
    have hfalse : (searchBwdLoop m f s.pos).1 = false := by
      rw [searchBwdLoop]
      exact searchBwdGo_not_found _ m f s.pos hpos hb
    have hbackwards : _search_backwards lib f q s =
        .ok (false, ⟨(searchBwdLoop m f s.pos).2, s.col⟩) := by
      unfold _search_backwards
      rw [hcomp]
      dsimp only
      rw [hfalse]
    refine ⟨?_, ⟨_, hbackwards⟩⟩
    rw [hbackwards]
    rfl

/-- Witness for C8: searching the file `"ab\ncd\n"` for the absent literal
query `"zzz"` from the cursor (3, 2) restores the cursor exactly in both
directions. -/
theorem c8_search_not_found_restores_witness :
    compile_smartcase_regex litLib "zzz" =
      .ok (fun line => litSearch (stripGroup ("(" ++ "zzz" ++ ")")) true line) ∧
    _search_with_interrupt_handling
      (_search_forwards litLib "ab\ncd\n".data 5 7 "zzz" ⟨3, 2⟩) ⟨3, 2⟩ = .ok ⟨3, 2⟩ ∧
    _search_with_interrupt_handling
      (_search_backwards litLib "ab\ncd\n".data "zzz" ⟨3, 2⟩) ⟨3, 2⟩ = .ok ⟨3, 2⟩ := by
  have hmain := c8_search_not_found_restores litLib "ab\ncd\n".data 5 7 "zzz"
    (fun line => litSearch (stripGroup ("(" ++ "zzz" ++ ")")) true line) ⟨3, 2⟩
    (by decide) rfl (by decide)
  refine ⟨rfl, ?_, ?_⟩
  · exact (hmain.1 (by decide)).1
  · exact (hmain.2 (by decide)).1

/-! ## Claim C6 -/

/-- C6: for every line and rule list whose splits concatenate back to the
line (the `re.split` guarantee), the color mask has one entry per
character; each character carries the color of the last rule in the list
whose match covers it (`NO_COLOR` if none), so where two rules overlap the
later rule wins; appending the ephemeral search-highlight rule after all
configured rules colors every character it covers with the highlight id
255 regardless of the other rules; and a zero-length line yields the empty
mask (and since the mask at `i` depends only on which rules mark `i`,
zero-length matched spans, which cover no characters, contribute no color
write and no net column advance). -/
theorem c6_color_mask_last_rule_wins :
    ∀ (rules : List (CompiledRegex × Nat)) (line : List Char),
      (∀ rc ∈ rules, ∀ l, (rc.1 l).flatten = l) →
      (generate_color_mask rules line).length = line.length ∧
      (∀ i, i < line.length →
        (generate_color_mask rules line).getD i 0 = lastMarkedColor rules line i) ∧
      (∀ (pre post : List (CompiledRegex × Nat)) (r : CompiledRegex) (c i : Nat),
        rules = pre ++ (r, c) :: post →
        i < line.length →
        (ruleMask r line).getD i false = true →
        (∀ rc ∈ post, (ruleMask rc.1 line).getD i false = false) →
        (generate_color_mask rules line).getD i 0 = c) ∧
      (∀ (hl : CompiledRegex), (∀ l, (hl l).flatten = l) →
        ∀ i, i < line.length → (ruleMask hl line).getD i false = true →
        (generate_color_mask
            (regex_to_color_including_last_search_query rules (some hl)) line).getD i 0 =
          SEARCH_COLOR) ∧
      generate_color_mask rules [] = [] := by
  intro rules line hjoin
  obtain ⟨hlen, hget⟩ := generate_color_mask_spec rules line hjoin
  refine ⟨hlen, hget, ?_, ?_, ?_⟩
  · intro pre post r c i hdecomp hi hmark hpost
    rw [hget i hi, hdecomp]
    unfold lastMarkedColor
    rw [List.filter_append, List.filter_cons]
    rw [if_pos (by simpa using hmark)]
    have hpostnil : List.filter (fun rc => (ruleMask rc.1 line).getD i false) post = [] := by
      rw [List.filter_eq_nil_iff]
      intro rc hrc
      have h2 := hpost rc hrc
      rw [List.getD_eq_getElem?_getD] at h2
      simp [h2]
    rw [hpostnil]
    rw [List.getLast?_append_of_ne_nil _ (by simp)]
    rfl
  · intro hl hhl i hi hmark
    have hjoin2 : ∀ rc ∈ rules ++ [(hl, SEARCH_COLOR)], ∀ l, (rc.1 l).flatten = l := by
      intro rc hrc l
      rcases List.mem_append.mp hrc with h | h
      · exact hjoin rc h l
      · rcases List.mem_singleton.mp h with rfl
        exact hhl l
    obtain ⟨hlen2, hget2⟩ := generate_color_mask_spec (rules ++ [(hl, SEARCH_COLOR)]) line hjoin2
    show (generate_color_mask (rules ++ [(hl, SEARCH_COLOR)]) line).getD i 0 = SEARCH_COLOR
    rw [hget2 i hi]
    unfold lastMarkedColor
    rw [List.filter_append]
    have hfs : List.filter (fun rc => (ruleMask rc.1 line).getD i false)
        [(hl, SEARCH_COLOR)] = [(hl, SEARCH_COLOR)] := by
      simp only [List.filter_singleton]
      rw [hmark]
      rfl
    rw [hfs, List.getLast?_append_of_ne_nil _ (by simp)]
    rfl
  · obtain ⟨hlen0, _⟩ := generate_color_mask_spec rules [] hjoin
    exact List.eq_nil_of_length_eq_zero hlen0

/-- Witness for C6: on the line `"abc"` with literal rules
`"ab" ↦ 1` and `"bc" ↦ 2`, whose matches overlap at position 1, the
overlap takes the later rule's color 2; appending the highlight rule
`"b"` recolors position 1 with 255. -/
theorem c6_color_mask_last_rule_wins_witness :
    (∀ rc ∈ [((litSplit "ab".data : CompiledRegex), 1), (litSplit "bc".data, 2)],
      ∀ l, (rc.1 l).flatten = l) ∧
    (generate_color_mask [(litSplit "ab".data, 1), (litSplit "bc".data, 2)]
      "abc".data).getD 1 0 = 2 ∧
    (generate_color_mask
      (regex_to_color_including_last_search_query
        [(litSplit "ab".data, 1), (litSplit "bc".data, 2)]
        (some (litSplit "b".data))) "abc".data).getD 1 0 = SEARCH_COLOR := by
  have hjoin : ∀ rc ∈ [((litSplit "ab".data : CompiledRegex), 1), (litSplit "bc".data, 2)],
      ∀ l, (rc.1 l).flatten = l := by
    intro rc hrc l
    rcases List.mem_cons.mp hrc with h | h
    · rw [h]
      exact litSplit_flatten "ab".data l
    · rcases List.mem_singleton.mp h with rfl
      exact litSplit_flatten "bc".data l
  have hmain := c6_color_mask_last_rule_wins
    [(litSplit "ab".data, 1), (litSplit "bc".data, 2)] "abc".data hjoin
  refine ⟨hjoin, ?_, ?_⟩
  · exact hmain.2.2.1 [(litSplit "ab".data, 1)] [] (litSplit "bc".data) 2 1 rfl
      (by decide) (by decide) (by simp)
  · exact hmain.2.2.2.1 (litSplit "b".data) (fun l => litSplit_flatten _ l) 1
      (by decide) (by decide)

/-! ## Claim C7 -/

/-- C7: after `insert_search_query`, the query appears exactly once, at the
front, with any older occurrence of the same string removed, and the list
holds at most 100 entries; folding any sequence of pairwise-distinct
queries into the empty history retains the most recent 100 in
most-recent-first order (so 150 distinct insertions keep exactly the last
100, and inserting a query twice leaves it once, at the front). -/
theorem c7_history_insert_dedupes_and_caps :
    ∀ (q : String) (qs : List String),
      (insert_search_query q qs).head? = some q ∧
      (insert_search_query q qs).count q = 1 ∧
      (insert_search_query q qs).length ≤ 100 ∧
      (∀ rs : List String, rs.Nodup →
        rs.foldl (fun s r => insert_search_query r s) [] = rs.reverse.take 100) := by
  intro q qs
  refine ⟨?_, ?_, ?_, ?_⟩
  · rw [insert_search_query_eq]
    rfl
  · rw [insert_search_query_eq, List.count_cons_self,
      List.count_eq_zero_of_not_mem (not_mem_tail_insert q qs)]
  · exact List.length_take_le _ _
  · intro rs hnd
    exact insertAll_eq_reverse_take rs hnd

/-- Witness for C7: with three distinct queries, the history after the
three insertions is most-recent-first with no duplicates; inserting `"b"`
twice in a row leaves it once at the front. -/
theorem c7_history_insert_dedupes_and_caps_witness :
    (["a", "b", "c"] : List String).Nodup ∧
    (["a", "b", "c"] : List String).foldl (fun s r => insert_search_query r s) [] =
      ["c", "b", "a"] ∧
    (insert_search_query "b" ["b", "a"]).count "b" = 1 ∧
    (insert_search_query "b" ["b", "a"]).head? = some "b" := by
  refine ⟨by decide, ?_, ?_, ?_⟩
  · have h := (c7_history_insert_dedupes_and_caps "a" []).2.2.2 ["a", "b", "c"] (by decide)
    simpa using h
  · exact (c7_history_insert_dedupes_and_caps "b" ["b", "a"]).2.1
  · exact (c7_history_insert_dedupes_and_caps "b" ["b", "a"]).1

/-! ## Claim C9 -/

/-- C9 counterexample: the claim states that every color identifier
outside `[1, 254]` — in particular 0 and 255 — is rejected at load time,
but `_validate_regex_to_color` accepts both 0 and 255 (its accepted range
is `[0, 255]`). -/
theorem c9_validation_accepts_0_and_255_cex :
    validate_regex_to_color [("x", (0 : Int))] = .ok () ∧
    validate_regex_to_color [("x", (255 : Int))] = .ok () := by
  exact ⟨rfl, rfl⟩

/-- C9 (amended): configuration validation accepts a rule list exactly
when it has at most 255 rules and every color identifier lies in
`[0, 255]` (so 0 and 255 are accepted); any validation failure is an
`ExitFailure` carrying the distinct exit status `os.EX_NOINPUT`. -/
theorem c9_validation_range_0_255 :
    ∀ (rtc : List (String × Int)),
      (validate_regex_to_color rtc = .ok () ↔
        rtc.length ≤ 255 ∧ ∀ rc ∈ rtc, 0 ≤ rc.2 ∧ rc.2 ≤ 255) ∧
      (∀ e, validate_regex_to_color rtc = .error e →
        ∃ msg, e = .exit_failure EX_NOINPUT msg) := by
  intro rtc
  constructor
  · by_cases h : rtc.length > 255
    · simp only [validate_regex_to_color, if_pos h]
      constructor
      · intro hc
        cases hc
      · intro hc
        exact absurd hc.1 (by omega)
    · simp only [validate_regex_to_color, if_neg h]
      rw [validateColors_ok_iff]
      constructor
      · intro hc
        exact ⟨by omega, hc⟩
      · intro hc
        exact hc.2
  · intro e he
    by_cases h : rtc.length > 255
    · simp [validate_regex_to_color, h] at he
      exact ⟨_, he.symm⟩
    · simp only [validate_regex_to_color, if_neg h] at he
      exact validateColors_error_code rtc e he

/-- Witness for C9: a color of 300 is rejected with exit status
`os.EX_NOINPUT`, and a color of 255 is accepted. -/
theorem c9_validation_range_0_255_witness :
    (validate_regex_to_color [("a", (300 : Int))] =
      .error (.exit_failure EX_NOINPUT
        "(regex: a, color: 300) is invalid - color must be in the range [0, 255]")) ∧
    (∃ msg, (PyExn.exit_failure EX_NOINPUT
        "(regex: a, color: 300) is invalid - color must be in the range [0, 255]") =
      .exit_failure EX_NOINPUT msg) ∧
    (validate_regex_to_color [("a", (255 : Int))] = .ok ()) := by
  refine ⟨rfl, ?_, ?_⟩
  · exact (c9_validation_range_0_255 [("a", (300 : Int))]).2 _ rfl
  · exact (c9_validation_range_0_255 [("a", (255 : Int))]).1.mpr (by decide)

/-! ## Claim C2 -/

/-- C2 counterexample: the claim states the compiled regex is
case-insensitive if and only if the query contains no uppercase letters,
for all queries including those with no letters at all; but the query
`"123"` contains no uppercase letters and is compiled case-sensitively,
because `str.islower()` is false for a string with no cased characters. -/
theorem c2_smartcase_letterless_query_cex :
    smartcaseIgnorecaseFlag "123" ≠ noUppercaseLetters "123" ∧
    smartcaseIgnorecaseFlag "123" = false ∧
    noUppercaseLetters "123" = true := by
  refine ⟨by decide, by decide, by decide⟩

/-- C2 (amended): query compilation passes `re.IGNORECASE` exactly when
the query has at least one (ASCII) letter and no uppercase letter
(`str.islower`), so queries with no letters at all compile
case-sensitively; the claim's examples hold: query `"error"` matches
`"Error"` and `"ERROR"`, while query `"Error"` matches only exact-case
`"Error"`. -/
theorem c2_smartcase_is_islower :
    (∀ (lib : ReLib) (q : String),
      compile_smartcase_regex lib q =
        compile_regex lib q
          (q.data.any (fun c => c.isAlpha) && q.data.all (fun c => !c.isUpper))) ∧
    smartSearchLit "error" "Error" = some true ∧
    smartSearchLit "error" "ERROR" = some true ∧
    smartSearchLit "Error" "Error" = some true ∧
    smartSearchLit "Error" "error" = some false ∧
    smartSearchLit "Error" "ERROR" = some false := by
  refine ⟨?_, by decide, by decide, by decide, by decide, by decide⟩
  intro lib q
  unfold compile_smartcase_regex
  have hpy : pyIslower q =
      (q.data.any (fun c => c.isAlpha) && q.data.all (fun c => !c.isUpper)) := rfl
  rw [hpy]
  cases hq : (q.data.any (fun c => c.isAlpha) && q.data.all (fun c => !c.isUpper)) <;> simp

/-- Witness for C2: the lowercase query `"error"` is compiled with
`re.IGNORECASE` under the literal-pattern library model. -/
theorem c2_smartcase_is_islower_witness :
    compile_smartcase_regex litLib "error" = compile_regex litLib "error" true := by
  have h := c2_smartcase_is_islower.1 litLib "error"
  simpa using h

/-! ## Claim C10 -/

/-- C10: invoking repeat-search (`n`) or repeat-search-reversed (`N`)
before any search query has ever been submitted
(`last_search_direction_char` is still `None`) reports failure from the
dispatch and leaves the cursor's byte offset and column offset — indeed
the whole session state — unchanged. -/
theorem c10_repeat_search_before_any_query_noop :
    ∀ (lib : ReLib) (f : List Char) (rows cols : Nat) (st : Session),
      st.lastDir = none →
      continue_search lib f rows cols st = .ok st ∧
      continue_reverse_search lib f rows cols st = .ok st ∧
      _continue_search lib f rows cols st = .ok (false, st.fstate) ∧
      _continue_reverse_search lib f rows cols st = .ok (false, st.fstate) := by
  intro lib f rows cols st h
  have h1 : ¬(st.lastDir = some SEARCH_FORWARDS_CHAR) := by rw [h]; simp
  have h2 : ¬(st.lastDir = some SEARCH_BACKWARDS_CHAR) := by rw [h]; simp
  refine ⟨?_, ?_, ?_, ?_⟩
  · simp [continue_search, _continue_search, _search_with_interrupt_handling, h1, h2]
  · simp [continue_reverse_search, _continue_reverse_search,
      _search_with_interrupt_handling, h1, h2]
  · simp [_continue_search, h1, h2]
  · simp [_continue_reverse_search, h1, h2]

/-- Witness for C10: a concrete fresh session at cursor (3, 1). -/
theorem c10_repeat_search_before_any_query_noop_witness :
    (Session.mk ⟨3, 1⟩ none [] [] none).lastDir = none ∧
    continue_search litLib "ab\ncd\n".data 5 7 (Session.mk ⟨3, 1⟩ none [] [] none) =
      .ok (Session.mk ⟨3, 1⟩ none [] [] none) ∧
    continue_reverse_search litLib "ab\ncd\n".data 5 7 (Session.mk ⟨3, 1⟩ none [] [] none) =
      .ok (Session.mk ⟨3, 1⟩ none [] [] none) := by
  refine ⟨rfl, ?_, ?_⟩
  · exact (c10_repeat_search_before_any_query_noop litLib "ab\ncd\n".data 5 7 _ rfl).1
  · exact (c10_repeat_search_before_any_query_noop litLib "ab\ncd\n".data 5 7 _ rfl).2.1

/-! ## Claim C1 -/

/-- C1 counterexample: the claim states an unparsable live query fails
with a recoverable error surfaced without crashing the session, aborting
only the query-entry attempt and leaving the search history and cursor
unchanged; but submitting the unparsable query `"("` raises an
`ExitFailure` with `os.EX_DATAERR` that escapes the search mode (only
`KeyboardInterrupt` is caught on this path, so the process exits), and the
query has already been inserted into the search history and persisted. -/
theorem c1_invalid_query_crashes_cex :
    (start_new_search badParenLib "abcd\nefgh\n".data 1 10 '/' "("
        (Session.mk ⟨0, 0⟩ none [] [] none)).2 =
      some (.exit_failure EX_DATAERR
        (compile_error_msg "(" "missing ), unterminated subpattern at position 0")) ∧
    (start_new_search badParenLib "abcd\nefgh\n".data 1 10 '/' "("
        (Session.mk ⟨0, 0⟩ none [] [] none)).1.queries = ["("] ∧
    (start_new_search badParenLib "abcd\nefgh\n".data 1 10 '/' "("
        (Session.mk ⟨0, 0⟩ none [] [] none)).1.savedQueries = ["("] ∧
    (start_new_search badParenLib "abcd\nefgh\n".data 1 10 '/' "("
        (Session.mk ⟨0, 0⟩ none [] [] none)).1.fstate = ⟨0, 0⟩ := by
  exact ⟨rfl, rfl, rfl, rfl⟩

/-- C1 (amended): submitting a nonempty live query whose pattern the
regex library rejects produces the dedicated `ExitFailure` with
`os.EX_DATAERR`, but the exception escapes the search mode (terminating
the session) rather than being handled, and it is raised only after the
query has been inserted at the front of the search history, the history
file has been rewritten, and the search direction recorded; the cursor is
left at its pre-search position because the failure precedes any
movement. -/
theorem c1_invalid_query_fatal_after_history_write :
    ∀ (lib : ReLib) (f : List Char) (rows cols : Nat) (dirChar : Char)
      (q : String) (st : Session) (e : String),
      q ≠ "" →
      (dirChar = SEARCH_FORWARDS_CHAR ∨ dirChar = SEARCH_BACKWARDS_CHAR) →
      lib.compile ("(" ++ q ++ ")") (pyIslower q) = .error e →
      start_new_search lib f rows cols dirChar q st =
        ({ st with lastQuery := some q,
                   queries := insert_search_query q st.queries,
                   savedQueries := insert_search_query q st.queries,
                   lastDir := some dirChar },
         some (.exit_failure EX_DATAERR (compile_error_msg q e))) := by
  intro lib f rows cols dirChar q st e hq hdir hcomp
  have hsc : compile_smartcase_regex lib q =
      .error (.exit_failure EX_DATAERR (compile_error_msg q e)) := by
    unfold compile_smartcase_regex compile_regex
    cases hpy : pyIslower q
    · rw [hpy] at hcomp
      simp [hcomp]
    · rw [hpy] at hcomp
      simp [hcomp]
  unfold start_new_search
  rw [if_neg hq]
  rcases hdir with hd | hd <;>
    subst hd <;>
    simp [continue_search, _continue_search, sessionInsertQuery,
      _search_forwards, _search_backwards, _search_with_interrupt_handling, hsc,
      SEARCH_FORWARDS_CHAR, SEARCH_BACKWARDS_CHAR]

/-- Witness for C1: the unparsable query `"("` submitted as a forward
search on a concrete session. -/
theorem c1_invalid_query_fatal_after_history_write_witness :
    ("(" : String) ≠ "" ∧
    badParenLib.compile ("(" ++ "(" ++ ")") (pyIslower "(") =
      .error "missing ), unterminated subpattern at position 0" ∧
    start_new_search badParenLib "abcd\nefgh\n".data 1 10 '/' "("
        (Session.mk ⟨0, 0⟩ none [] [] none) =
      ({ Session.mk ⟨0, 0⟩ none [] [] none with
           lastQuery := some "(",
           queries := insert_search_query "(" [],
           savedQueries := insert_search_query "(" [],
           lastDir := some '/' },
       some (.exit_failure EX_DATAERR
         (compile_error_msg "(" "missing ), unterminated subpattern at position 0"))) := by
  refine ⟨by decide, rfl, ?_⟩
  exact c1_invalid_query_fatal_after_history_write badParenLib "abcd\nefgh\n".data 1 10 '/'
    "(" (Session.mk ⟨0, 0⟩ none [] [] none) "missing ), unterminated subpattern at position 0"
    (by decide) (Or.inl rfl) rfl

end Colorless
